import Mathlib

/-!
# Build order and manifest entries of the MTA build tool

A shallow embedding of `mta/modules_deps.go` (dependency graph and Kahn-style
resolution of the module build order) and of `internal/artifacts/manifest.go`
(construction of the manifest entry list), followed by the properties proved
about them.

Conventions of the embedding.

* A Go `map[string]*graphNode` is an association list with pairwise distinct
  keys; assignment replaces the value of an existing key in place and appends
  a new key, `delete` drops the key.  Go leaves the iteration order of a map
  unspecified, so the one loop whose result depends on that order
  (`provideCyclicModules`) receives the order from an explicit parameter.
  `getModulesOrderIn` is the same program with every range over a map or a
  set taken in an order given by the run (`Ranges`); it is proved to agree
  with `getModulesOrder` up to the two names of the error.
* A `mapset.Set` of strings or of indexes is a list observed only through
  membership and emptiness (`Add`, `Contains`, `Cardinality() == 0`,
  `Difference`).
* The `for len(overleft) != 0` loop is a function with a fuel argument; the
  result is `none` only when the fuel runs out.
* The filesystem and the platform are the record `Env`: the path separator,
  `filepath.Join` and `os.Stat`, whose result is file information, the
  not-exist error, or another error.
* A `map[string]interface{}` is an association list of values; the string type
  assertion on a value that is not a string is the outcome `panic`.
* `setManifestDesc` is embedded up to its tail call of `genManifest`, which
  writes the file: the outcome `ok entries` stands for that call.
-/

deriving instance DecidableEq for Except

namespace Mta

/-- Entry of `BuildParams.Requires`: only the name is read by the resolver. -/
structure BuildRequires where
  Name : String
deriving DecidableEq, Repr

/-- The field of `BuildParams` read by the resolver. -/
structure BuildParameters where
  Requires : List BuildRequires
deriving DecidableEq, Repr

/-- The fields of `mta.Module` read by `getModulesOrder`: the module name and
the build parameters with their requires list. -/
structure Module where
  Name : String
  BuildParams : BuildParameters
deriving DecidableEq, Repr

/-- Go `graphNode`: module name, dependency set, index in `mta.Modules`. -/
structure graphNode where
  module : String
  deps : List String
  index : Nat
deriving DecidableEq, Repr

/-- Go `graphs`, the map from module name to node. -/
abbrev graphs := List (String × graphNode)

/-- Go `newGn`. -/
def newGn (module : String) (deps : List String) (index : Nat) : graphNode :=
  { module := module, deps := deps, index := index }

/-- Map assignment `graph[key] = node`. -/
def graphs.set : graphs → String → graphNode → graphs
  | [], key, node => [(key, node)]
  | (k, n) :: rest, key, node =>
    if k = key then (k, node) :: rest else (k, n) :: graphs.set rest key node

/-- Map deletion `delete(graph, key)`. -/
def graphs.delete (g : graphs) (key : String) : graphs :=
  g.filter (fun kn => decide (kn.1 ≠ key))

/-- The dependency set built by the inner loop of `getModulesOrder`:
`deps.Add(req.Name)` for every entry of `module.BuildParams.Requires`. -/
def depsOf (m : Module) : List String :=
  m.BuildParams.Requires.foldl (fun deps req => if req.Name ∈ deps then deps else deps ++ [req.Name]) []

/-- The outer loop of `getModulesOrder`, from position `index` on. -/
def buildGraph : List Module → Nat → graphs → graphs
  | [], _, graph => graph
  | m :: rest, index, graph =>
    buildGraph rest (index + 1) (graph.set m.Name (newGn m.Name (depsOf m) index))

/-- Go `provideCyclicModules`; `iteration` is the sequence of nodes in the order
in which `range *overleft` yields them. -/
def provideCyclicModulesLoop : List graphNode → String → String → Nat → String × String
  | [], module1, module2, _ => (module1, module2)
  | node :: rest, module1, module2, index =>
    if index = 0 then provideCyclicModulesLoop rest node.module module2 1
    else (module1, node.module)

/-- Go `provideCyclicModules`. -/
def provideCyclicModules (iteration : List graphNode) : String × String :=
  provideCyclicModulesLoop iteration "" "" 0

/-- The error value built by `errors.Errorf` in `resolveGraph`. -/
def circularError (module1 module2 : String) : String :=
  "Circular dependency found. Check modules " ++ module1 ++ " and " ++ module2

/-- Nodes of `overleft` whose dependency set has cardinality zero
(`readyNodesSet`). -/
def readyNodes (overleft : graphs) : List graphNode :=
  (overleft.map Prod.snd).filter (fun node => node.deps.length == 0)

/-- Removal of the ready nodes from `overleft` (first loop over
`readyNodesSet.Iter()`, the `delete` part). -/
def deleteReady (overleft : graphs) (ready : List graphNode) : graphs :=
  ready.foldl (fun g node => g.delete node.module) overleft

/-- The loop over `mta.Modules` that appends the names of the modules whose
index is in `readyModulesIndexes`, from position `index` on. -/
def appendReady (readyModulesIndexes : List Nat) : List Module → Nat → List String → List String
  | [], _, resolved => resolved
  | m :: rest, index, resolved =>
    appendReady readyModulesIndexes rest (index + 1)
      (if index ∈ readyModulesIndexes then resolved ++ [m.Name] else resolved)

/-- The last loop of an iteration: `node.deps = node.deps.Difference(readyModulesSet)`
for every remaining node. -/
def removeReadyDeps (overleft : graphs) (readyModulesSet : List String) : graphs :=
  overleft.map (fun kn =>
    (kn.1, { kn.2 with deps := kn.2.deps.filter (fun d => decide (d ∉ readyModulesSet)) }))

/-- The `for len(overleft) != 0` loop of `resolveGraph`.  `order` gives the
iteration order of the remaining-node map at the failure point. -/
def resolveLoop (order : graphs → List graphNode) (mods : List Module) :
    Nat → graphs → List String → Option (Except String (List String))
  | 0, _, _ => none
  | fuel + 1, overleft, resolved =>
    if overleft.length = 0 then some (.ok resolved)
    else
      let readyNodesSet := readyNodes overleft
      let readyModulesSet := readyNodesSet.map (fun node => node.module)
      if readyNodesSet.length = 0 then
        let mm := provideCyclicModules (order overleft)
        some (.error (circularError mm.1 mm.2))
      else
        let overleft1 := deleteReady overleft readyNodesSet
        let readyModulesIndexes := readyNodesSet.map (fun node => node.index)
        let resolved1 := appendReady readyModulesIndexes mods 0 resolved
        resolveLoop order mods fuel (removeReadyDeps overleft1 readyModulesSet) resolved1

/-- Go `resolveGraph`.  Every iteration that does not return removes a node, so
`len(graph) + 1` units of fuel are enough. -/
def resolveGraph (order : graphs → List graphNode) (graph : graphs) (mods : List Module) :
    Option (Except String (List String)) :=
  resolveLoop order mods (graph.length + 1) graph []

/-- Go `getModulesOrder`. -/
def getModulesOrder (order : graphs → List graphNode) (mods : List Module) :
    Option (Except String (List String)) :=
  resolveGraph order (buildGraph mods 0 []) mods

/-- The iteration order that yields the nodes in their stored order. -/
def storedOrder (g : graphs) : List graphNode := g.map Prod.snd

/-- An admissible iteration order visits every node of the map exactly once. -/
def IsIteration (order : graphs → List graphNode) : Prop :=
  ∀ g : graphs, (order g).Perm (g.map Prod.snd)

/-- Exit of the `for len(overleft) != 0` loop: either the loop condition
fails and `resolved` is returned, or no node is ready and the function returns
from inside the loop with `overleft` as it is at that moment. -/
inductive LoopExit where
  | resolved (order : List String)
  | stuck (overleft : graphs)
deriving DecidableEq, Repr

/-- The loop of `resolveGraph` once more, recording the remaining-node map at
the failure point instead of formatting the error from it. -/
def loopExit (mods : List Module) : Nat → graphs → List String → Option LoopExit
  | 0, _, _ => none
  | fuel + 1, overleft, resolved =>
    if overleft.length = 0 then some (.resolved resolved)
    else
      let readyNodesSet := readyNodes overleft
      let readyModulesSet := readyNodesSet.map (fun node => node.module)
      if readyNodesSet.length = 0 then some (.stuck overleft)
      else
        let overleft1 := deleteReady overleft readyNodesSet
        let readyModulesIndexes := readyNodesSet.map (fun node => node.index)
        let resolved1 := appendReady readyModulesIndexes mods 0 resolved
        loopExit mods fuel (removeReadyDeps overleft1 readyModulesSet) resolved1

/-- The remaining-node map at the moment `getModulesOrder` fails, if it does. -/
def remainingAtFailure (mods : List Module) : Option graphs :=
  match loopExit mods ((buildGraph mods 0 []).length + 1) (buildGraph mods 0 []) [] with
  | some (.stuck overleft) => some overleft
  | _ => none

/-- Module `A` lists the name `B` in its build-parameter requires. -/
def RequiresName (mods : List Module) (A B : String) : Prop :=
  ∃ m ∈ mods, m.Name = A ∧ ∃ req ∈ m.BuildParams.Requires, req.Name = B

/-- The requires relation has a cycle: some name reaches itself in one or more
steps. -/
def HasCycle (mods : List Module) : Prop :=
  ∃ A, Relation.TransGen (RequiresName mods) A A

/-- The names of the declared modules, in declaration order. -/
def moduleNames (mods : List Module) : List String := mods.map (fun m => m.Name)

end Mta

namespace Artifacts

/-- A value stored in a `map[string]interface{}` parameter set; `null` is the
nil interface. -/
inductive Value where
  | null
  | str (s : String)
  | int (n : Int)
  | bool (b : Bool)
deriving DecidableEq, Repr

/-- The `Parameters` map of a requirement or of a resource. -/
abbrev Parameters := List (String × Value)

/-- Map read `params[key]`: the nil interface when the key is absent. -/
def Parameters.get (params : Parameters) (key : String) : Value :=
  match params.lookup key with
  | some v => v
  | none => .null

/-- Type assertion `v.(string)`; `none` is the run-time panic. -/
def Value.assertString : Value → Option String
  | .str s => some s
  | _ => none

/-- The fields of `mta.Requires` read here. -/
structure Requires where
  Name : String
  Parameters : Parameters
deriving DecidableEq, Repr

/-- The fields of `mta.Module` read here. -/
structure Module where
  Name : String
  Path : String
  Requires : List Requires
deriving DecidableEq, Repr

/-- The fields of `mta.Resource` read here. -/
structure Resource where
  Name : String
  Parameters : Parameters
deriving DecidableEq, Repr

/-- A non-nil `targetPathGetter`: a `*dir.Loc`, given by what its getters
`GetSource()` and `GetTargetTmpDir()` return. -/
structure Loc where
  source : String
  targetTmpDir : String
deriving DecidableEq, Repr

/-- Result of `os.Stat`: file information, the not-exist error, or another
error. -/
inductive StatResult where
  | info (isDir : Bool)
  | notExist
  | otherError
deriving DecidableEq, Repr

/-- The platform and the filesystem: `os.PathSeparator`, `filepath.Join` and
`os.Stat`. -/
structure Env where
  Separator : Char
  Join : String → String → String
  Stat : String → StatResult

def applicationZip : String := "application/zip"
def moduleEntry : String := "MTA-Module"
def requiredEntry : String := "MTA-Requires"
def resourceEntry : String := "MTA-Resource"
def dirContentType : String := "text/directory"

/-- Go constant `dataZip = pathSep + "data.zip"`. -/
def dataZip (env : Env) : String := String.singleton env.Separator ++ "data.zip"

/-- Go `filepath.ToSlash`. -/
def ToSlash (env : Env) (path : String) : String :=
  if env.Separator = '/' then path
  else path.map (fun c => if c = env.Separator then '/' else c)

/-- Go `entry`. -/
structure entry where
  EntryName : String
  EntryType : String
  ContentType : String
  EntryPath : String
deriving DecidableEq, Repr

/-- What a call does: return a value, return an error, or panic. -/
inductive Outcome (α : Type) where
  | ok (a : α)
  | error (msg : String)
  | panic
deriving DecidableEq, Repr

/-- Go `errors.Wrapf(err, message)`: the message of the wrapped error. -/
def wrapf (err : String) (message : String) : String := message ++ ": " ++ err

/-- Go `getContentType`. -/
def getContentType (env : Env) (targetPathGetter : Option Loc) (path : String) :
    Except String String :=
  match targetPathGetter with
  | none => .ok applicationZip
  | some loc =>
    let targetPath := env.Join loc.targetTmpDir path
    match env.Stat (env.Join loc.targetTmpDir path) with
    | .info isDir => if isDir then .ok dirContentType else .ok applicationZip
    | _ => .error ("the " ++ targetPath ++ " path does not exist, content type not defined")

/-- Go `getRequiredDependencies`. -/
def getRequiredDependencies (module : Module) : List Requires :=
  module.Requires.filter (fun requiredDependency =>
    decide (requiredDependency.Parameters.get "path" ≠ .null))

/-- Go `getResourcePath`. -/
def getResourcePath (resource : Resource) : Option String :=
  (resource.Parameters.get "path").assertString

/-- Go `existsModuleZipInDirectories`. -/
def existsModuleZipInDirectories (env : Env) (module : Module) : List String → Bool
  | [] => false
  | directory :: rest =>
    if env.Stat (env.Join directory (ToSlash env (module.Name ++ dataZip env))) ≠ .notExist then true
    else existsModuleZipInDirectories env module rest

/-- Go `getModulePath`. -/
def getModulePath (env : Env) (module : Module) (targetPathGetter : Option Loc) : String :=
  match targetPathGetter with
  | none => ToSlash env (module.Name ++ dataZip env)
  | some loc =>
    if existsModuleZipInDirectories env module [loc.source, loc.targetTmpDir] then
      ToSlash env (module.Name ++ dataZip env)
    else module.Path

/-- Go `moduleDefined`; a nil slice is the empty list. -/
def moduleDefined (module : String) (modules : List String) : Bool :=
  if modules.length = 0 then true
  else modules.any (fun m => decide (m = module))

/-- The loop of Go `buildEntries`, with `result` as accumulated so far. -/
def buildEntriesLoop (env : Env) (targetPathGetter : Option Loc) (module : Module) :
    List Requires → List entry → Outcome (List entry)
  | [], result => .ok result
  | requiredDependency :: rest, result =>
    match (requiredDependency.Parameters.get "path").assertString with
    | none => .panic
    | some path =>
      match getContentType env targetPathGetter path with
      | .error err => .error err
      | .ok contentType =>
        buildEntriesLoop env targetPathGetter module rest
          (result ++ [{ EntryName := module.Name ++ "/" ++ requiredDependency.Name,
                        EntryPath := path,
                        ContentType := contentType,
                        EntryType := requiredEntry }])

/-- Go `buildEntries`. -/
def buildEntries (env : Env) (targetPathGetter : Option Loc) (module : Module)
    (requiredDependencies : List Requires) : Outcome (List entry) :=
  buildEntriesLoop env targetPathGetter module requiredDependencies []

/-- The loop over `mtaStr` of Go `setManifestDesc`. -/
def modulesLoop (env : Env) (targetPathGetter : Option Loc) (modules : List String)
    (onlyModules : Bool) : List Module → List entry → Outcome (List entry)
  | [], entries => .ok entries
  | mod :: rest, entries =>
    if moduleDefined mod.Name modules then
      match getContentType env targetPathGetter (getModulePath env mod targetPathGetter) with
      | .error err =>
        .error (wrapf err ("generation of the manifest failed when getting the " ++ mod.Name
          ++ " module content type"))
      | .ok contentType =>
        let entries1 := entries ++ [{ EntryName := mod.Name,
                                      EntryPath := getModulePath env mod targetPathGetter,
                                      ContentType := contentType,
                                      EntryType := moduleEntry }]
        if onlyModules then modulesLoop env targetPathGetter modules onlyModules rest entries1
        else
          match buildEntries env targetPathGetter mod (getRequiredDependencies mod) with
          | .panic => .panic
          | .error err =>
            .error (wrapf err ("generation of the manifest failed when building required entries of the "
              ++ mod.Name ++ " module"))
          | .ok requiredDependencyEntries =>
            modulesLoop env targetPathGetter modules onlyModules rest
              (entries1 ++ requiredDependencyEntries)
    else modulesLoop env targetPathGetter modules onlyModules rest entries

/-- The loop over `mtaResources` of Go `setManifestDesc`. -/
def resourcesLoop (env : Env) (targetPathGetter : Option Loc) :
    List Resource → List entry → Outcome (List entry)
  | [], entries => .ok entries
  | resource :: rest, entries =>
    if resource.Parameters.get "path" = .null then
      resourcesLoop env targetPathGetter rest entries
    else
      match getResourcePath resource with
      | none => .panic
      | some path =>
        match getContentType env targetPathGetter path with
        | .error err =>
          .error (wrapf err ("generation of the manifest failed when getting the " ++ resource.Name
            ++ " resource content type"))
        | .ok contentType =>
          resourcesLoop env targetPathGetter rest
            (entries ++ [{ EntryName := resource.Name,
                           EntryPath := path,
                           ContentType := contentType,
                           EntryType := resourceEntry }])

/-- Go `setManifestDesc` up to its last line: `.ok entries` stands for the tail
call `genManifest(ep.GetManifestPath(), entries)`, whose result the function
returns; `.error` and `.panic` are the exits before that call. -/
def setManifestDesc (env : Env) (targetPathGetter : Option Loc) (mtaStr : List Module)
    (mtaResources : List Resource) (modules : List String) (onlyModules : Bool) :
    Outcome (List entry) :=
  match modulesLoop env targetPathGetter modules onlyModules mtaStr [] with
  | .panic => .panic
  | .error msg => .error msg
  | .ok entries =>
    if !onlyModules then resourcesLoop env targetPathGetter mtaResources entries
    else .ok entries

end Artifacts

/-! ## Definitions used to state and prove the properties -/

namespace Mta

/-- Node stored for the module `im.2` declared at position `im.1`, once the
names in `res` have been resolved. -/
def nodeOf (res : List String) (im : Nat × Module) : String × graphNode :=
  (im.2.Name, { module := im.2.Name,
                deps := (depsOf im.2).filter (fun d => decide (d ∉ res)),
                index := im.1 })

/-- The module `im.2` is not resolved yet. -/
def pending (res : List String) (im : Nat × Module) : Bool := decide (im.2.Name ∉ res)

/-- The module `im.2` is not resolved yet and all its dependencies are. -/
def ready (res : List String) (im : Nat × Module) : Bool :=
  pending res im && ((depsOf im.2).filter (fun d => decide (d ∉ res))).length == 0

/-- The remaining-node map after the names in `res` have been resolved. -/
def stateOf (mods : List Module) (res : List String) : graphs :=
  (mods.enum.filter (pending res)).map (nodeOf res)

/-- The names resolved in the round that starts from `res`. -/
def readyChunk (mods : List Module) (res : List String) : List String :=
  (mods.enum.filter (ready res)).map (fun im => im.2.Name)

/-- What `getModulesOrder` returns for a given exit of the loop. -/
def exitResult (order : graphs → List graphNode) : LoopExit → Except String (List String)
  | .resolved out => .ok out
  | .stuck overleft =>
    .error (circularError (provideCyclicModules (order overleft)).1
      (provideCyclicModules (order overleft)).2)

/-- Invariant of the resolved prefix: no name twice, only declared names, and
every resolved module has all its dependencies resolved strictly before it. -/
structure Good (mods : List Module) (res : List String) : Prop where
  nodup : res.Nodup
  sub : ∀ x ∈ res, x ∈ moduleNames mods
  topo : ∀ m ∈ mods, m.Name ∈ res → ∀ B ∈ depsOf m, B ∈ res ∧ res.indexOf B < res.indexOf m.Name

/-- Well-formed map: pairwise distinct keys, and every node stored under its
own module name. -/
def WFg (g : graphs) : Prop :=
  (g.map Prod.fst).Nodup ∧ ∀ kn ∈ g, kn.2.module = kn.1

/-- What the invariant gives at each exit of the loop. -/
def ExitSpec (mods : List Module) : LoopExit → Prop
  | .resolved out => Good mods out ∧ ∀ m ∈ mods, m.Name ∈ out
  | .stuck overleft => ∃ res, Good mods res ∧ overleft = stateOf mods res ∧
      (∃ m ∈ mods, m.Name ∉ res) ∧ readyChunk mods res = []

/-- The iteration order that yields the nodes in the reverse of their stored
order. -/
def reversedOrder (g : graphs) : List graphNode := (g.map Prod.snd).reverse

/-- The level equation: a module without requirements has level 0, any other
module has level one more than the greatest level of the names it requires. -/
def IsLevel (mods : List Module) (level : String → Nat) : Prop :=
  ∀ m ∈ mods, level m.Name =
    if m.BuildParams.Requires = [] then 0
    else 1 + (m.BuildParams.Requires.map (fun r => level r.Name)).foldr max 0

/-- The level of a name computed by unfolding the level equation `fuel` times. -/
def levelOf (mods : List Module) : Nat → String → Nat
  | 0, _ => 0
  | fuel + 1, name =>
    match mods.find? (fun m => m.Name == name) with
    | none => 0
    | some m =>
      if m.BuildParams.Requires = [] then 0
      else 1 + (m.BuildParams.Requires.map (fun r => levelOf mods fuel r.Name)).foldr max 0

/-- Strict order by level, then by declaration index. -/
def layerLt (mods : List Module) (level : String → Nat) (a b : String) : Prop :=
  level a < level b ∨
    (level a = level b ∧ (moduleNames mods).indexOf a < (moduleNames mods).indexOf b)

/-- Order by level, then by declaration index. -/
def layerLe (mods : List Module) (level : String → Nat) (a b : String) : Prop :=
  level a < level b ∨
    (level a = level b ∧ (moduleNames mods).indexOf a ≤ (moduleNames mods).indexOf b)

instance layerLeDecidable (mods : List Module) (level : String → Nat) :
    DecidableRel (layerLe mods level) :=
  fun a b => by unfold layerLe; infer_instance

/-- Invariant of the rounds: after `k` rounds the resolved names are those of
level below `k`, in layer order. -/
def Layered (mods : List Module) (level : String → Nat) (res : List String) (k : Nat) : Prop :=
  (∀ m ∈ mods, m.Name ∈ res ↔ level m.Name < k) ∧ res.Pairwise (layerLt mods level)

/-- The orders in which one run ranges over its maps and sets: `ready` for the
`range overleft` that collects the ready nodes, `iter` for
`readyNodesSet.Iter()`, `update` for the `range overleft` that updates the
dependency sets, `cyclic` for the range in `provideCyclicModules`, and
`members` for the order in which `Difference` visits a dependency set. -/
structure Ranges where
  ready : graphs → graphs
  iter : List graphNode → List graphNode
  update : graphs → graphs
  cyclic : graphs → List graphNode
  members : List String → List String

/-- Every range of the run visits each element of its map or set exactly
once. -/
def Ranges.Admissible (r : Ranges) : Prop :=
  (∀ g, (r.ready g).Perm g) ∧ (∀ l, (r.iter l).Perm l) ∧ (∀ g, (r.update g).Perm g) ∧
    IsIteration r.cyclic ∧ ∀ s, (r.members s).Perm s

/-- The assignment `node.deps = node.deps.Difference(readyModulesSet)`, the
difference built in the order in which the dependency set is visited. -/
def dropReady (members : List String → List String) (readyModulesSet : List String)
    (node : graphNode) : graphNode :=
  { node with deps := (members node.deps).filter (fun d => decide (d ∉ readyModulesSet)) }

/-- The last loop of an iteration, visiting the remaining nodes in the order
`visited`. -/
def updateDeps (members : List String → List String) (readyModulesSet : List String)
    (visited : graphs) (overleft : graphs) : graphs :=
  visited.foldl (fun g kn => g.set kn.1 (dropReady members readyModulesSet kn.2)) overleft

/-- The loop of `resolveGraph` with every range over a map or a set taken in
the order the run gives it. -/
def resolveLoopIn (r : Ranges) (mods : List Module) :
    Nat → graphs → List String → Option (Except String (List String))
  | 0, _, _ => none
  | fuel + 1, overleft, resolved =>
    if overleft.length = 0 then some (.ok resolved)
    else
      let readyNodesSet := readyNodes (r.ready overleft)
      let readyModulesSet := readyNodesSet.map (fun node => node.module)
      if readyNodesSet.length = 0 then
        let mm := provideCyclicModules (r.cyclic overleft)
        some (.error (circularError mm.1 mm.2))
      else
        let visit := r.iter readyNodesSet
        let overleft1 := deleteReady overleft visit
        let readyModulesIndexes := visit.map (fun node => node.index)
        let resolved1 := appendReady readyModulesIndexes mods 0 resolved
        resolveLoopIn r mods fuel
          (updateDeps r.members readyModulesSet (r.update overleft1) overleft1) resolved1

/-- Go `getModulesOrder` with every range over a map or a set taken in the
order the run gives it. -/
def getModulesOrderIn (r : Ranges) (mods : List Module) :
    Option (Except String (List String)) :=
  resolveLoopIn r mods ((buildGraph mods 0 []).length + 1) (buildGraph mods 0 []) []

/-- The run that takes every range in stored order. -/
def storedRanges : Ranges :=
  { ready := id, iter := id, update := id, cyclic := storedOrder, members := id }

/-- The run that takes every range in the reverse of the stored order. -/
def reversedRanges : Ranges :=
  { ready := List.reverse, iter := List.reverse, update := List.reverse,
    cyclic := reversedOrder, members := List.reverse }

/-- Two remaining-node maps hold the same nodes under the same keys in the same
places, with dependency sets of the same members. -/
def Sim (g g' : graphs) : Prop :=
  List.Forall₂ (fun a b => a.1 = b.1 ∧ a.2.module = b.2.module ∧ a.2.index = b.2.index ∧
    a.2.deps.Perm b.2.deps) g g'

end Mta

namespace Artifacts

/-- The content type of a path whose classification succeeds. -/
def contentTypeOf (env : Env) (targetPathGetter : Option Loc) (path : String) : String :=
  match getContentType env targetPathGetter path with
  | .ok contentType => contentType
  | .error _ => ""

/-- Classification of the path succeeds. -/
def classifies (env : Env) (targetPathGetter : Option Loc) (path : String) : Bool :=
  match getContentType env targetPathGetter path with
  | .ok _ => true
  | .error _ => false

/-- The parameter set declares a path: its `path` entry is present and not nil. -/
def declaresPath (params : Parameters) : Bool := decide (params.get "path" ≠ .null)

/-- The declared path is textual. -/
def textualPath (params : Parameters) : Bool :=
  match params.get "path" with
  | .str _ => true
  | _ => false

/-- The declared path, when it is textual. -/
def declaredPath (params : Parameters) : String :=
  match params.get "path" with
  | .str s => s
  | _ => ""

/-- The module is in the inclusion set, or the inclusion set is empty. -/
def included (modules : List String) (m : Module) : Bool :=
  decide (modules = [] ∨ m.Name ∈ modules)

/-- The MTA-Module entry of a module. -/
def moduleEntryOf (env : Env) (targetPathGetter : Option Loc) (m : Module) : entry :=
  { EntryName := m.Name,
    EntryType := moduleEntry,
    ContentType := contentTypeOf env targetPathGetter (getModulePath env m targetPathGetter),
    EntryPath := getModulePath env m targetPathGetter }

/-- The MTA-Requires entry of a requirement of `m` that declares a path. -/
def requiredEntryOf (env : Env) (targetPathGetter : Option Loc) (m : Module) (r : Requires) :
    entry :=
  { EntryName := m.Name ++ "/" ++ r.Name,
    EntryType := requiredEntry,
    ContentType := contentTypeOf env targetPathGetter (declaredPath r.Parameters),
    EntryPath := declaredPath r.Parameters }

/-- The MTA-Resource entry of a resource that declares a path. -/
def resourceEntryOf (env : Env) (targetPathGetter : Option Loc) (r : Resource) : entry :=
  { EntryName := r.Name,
    EntryType := resourceEntry,
    ContentType := contentTypeOf env targetPathGetter (declaredPath r.Parameters),
    EntryPath := declaredPath r.Parameters }

/-- The entries of one included module: its Module entry, then, unless
module-only mode is on, one entry per requirement that declares a path, in
declaration order. -/
def entriesOfModule (env : Env) (targetPathGetter : Option Loc) (onlyModules : Bool)
    (m : Module) : List entry :=
  moduleEntryOf env targetPathGetter m ::
    (if onlyModules then []
     else (m.Requires.filter (fun r => declaresPath r.Parameters)).map
       (requiredEntryOf env targetPathGetter m))

/-- The entry list as the specification words it: the entries of the included
modules in input order, then, unless module-only mode is on, one entry per
resource that declares a path, in input order. -/
def expectedEntries (env : Env) (targetPathGetter : Option Loc) (mtaStr : List Module)
    (mtaResources : List Resource) (modules : List String) (onlyModules : Bool) : List entry :=
  ((mtaStr.filter (included modules)).map
      (entriesOfModule env targetPathGetter onlyModules)).flatten
    ++ (if onlyModules then []
        else (mtaResources.filter (fun r => declaresPath r.Parameters)).map
          (resourceEntryOf env targetPathGetter))

/-- An environment in which every path exists as a plain file. -/
def plainFiles : Env :=
  { Separator := '/', Join := fun d p => d ++ "/" ++ p, Stat := fun _ => .info false }

/-- The synthesized archive path of a module, `filepath.ToSlash(module.Name + dataZip)`. -/
def zipPath (env : Env) (m : Module) : String := ToSlash env (m.Name ++ dataZip env)

/-- The message of the classification error for the stat'ed path. -/
def pathError (targetPath : String) : String :=
  "the " ++ targetPath ++ " path does not exist, content type not defined"

/-- An environment with a source artifact for `web` that is missing under the
temporary directory, a directory `webdir` and nothing else. -/
def sourceOnly : Env :=
  { Separator := '/',
    Join := fun d p => d ++ "/" ++ p,
    Stat := fun p =>
      if p = "src/web/data.zip" then .info false
      else if p = "tmp/webdir" then .info true
      else .notExist }

/-- A step of entry building that can end it: the classification of a path,
with the message wrapped around its failure, or a string type assertion on a
path parameter that is not textual. -/
inductive Step where
  | classify (path : String) (context : String)
  | castFailure
deriving DecidableEq, Repr

/-- How entry building ends early: with an error or with a panic. -/
inductive Stop where
  | error (msg : String)
  | panic
deriving DecidableEq, Repr

/-- Message wrapped around a failed classification of a module path. -/
def moduleContext (m : Module) : String :=
  "generation of the manifest failed when getting the " ++ m.Name ++ " module content type"

/-- Message wrapped around a failure while building the required entries of a
module. -/
def requiredContext (m : Module) : String :=
  "generation of the manifest failed when building required entries of the " ++ m.Name
    ++ " module"

/-- Message wrapped around a failed classification of a resource path. -/
def resourceContext (r : Resource) : String :=
  "generation of the manifest failed when getting the " ++ r.Name ++ " resource content type"

/-- The step of a declared path parameter. -/
def parameterStep (params : Parameters) (context : String) : Step :=
  if textualPath params then .classify (declaredPath params) context else .castFailure

/-- The steps of one included module, in entry order. -/
def stepsOfModule (env : Env) (targetPathGetter : Option Loc) (onlyModules : Bool)
    (m : Module) : List Step :=
  .classify (getModulePath env m targetPathGetter) (moduleContext m) ::
    (if onlyModules then []
     else (m.Requires.filter (fun r => declaresPath r.Parameters)).map
       (fun r => parameterStep r.Parameters (requiredContext m)))

/-- The steps of a call, in entry order. -/
def steps (env : Env) (targetPathGetter : Option Loc) (mtaStr : List Module)
    (mtaResources : List Resource) (modules : List String) (onlyModules : Bool) : List Step :=
  ((mtaStr.filter (included modules)).map
      (stepsOfModule env targetPathGetter onlyModules)).flatten
    ++ (if onlyModules then []
        else (mtaResources.filter (fun r => declaresPath r.Parameters)).map
          (fun r => parameterStep r.Parameters (resourceContext r)))

/-- The first step of the list that ends entry building, if any. -/
def firstStop (env : Env) (targetPathGetter : Option Loc) : List Step → Option Stop
  | [] => none
  | .castFailure :: _ => some .panic
  | .classify path context :: rest =>
    match getContentType env targetPathGetter path with
    | .error err => some (.error (wrapf err context))
    | .ok _ => firstStop env targetPathGetter rest

/-- The outcome of entry building for a given early end, or for none. -/
def outcomeOf (stop : Option Stop) (entries : List entry) : Outcome (List entry) :=
  match stop with
  | none => .ok entries
  | some (.error msg) => .error msg
  | some .panic => .panic

/-- An environment in which `stat` fails with an error other than not-exist for
the artifact of `web` under the source directory (a file `src/web` stands where
a directory is needed) and reports not-exist everywhere else. -/
def notADirectory : Env :=
  { Separator := '/',
    Join := fun d p => d ++ "/" ++ p,
    Stat := fun p => if p = "src/web/data.zip" then .otherError else .notExist }

/-- An environment with the backslash as path separator in which nothing
exists. -/
def backslashSeparator : Env :=
  { Separator := '\\',
    Join := fun d p => d ++ "\\" ++ p,
    Stat := fun _ => .notExist }

end Artifacts

/-! ## The build order -/

namespace Mta

theorem mem_depsOf (m : Module) (B : String) :
    B ∈ depsOf m ↔ ∃ req ∈ m.BuildParams.Requires, req.Name = B := by
  unfold depsOf
  suffices h : ∀ (l : List BuildRequires) (acc : List String),
      B ∈ l.foldl (fun deps req => if req.Name ∈ deps then deps else deps ++ [req.Name]) acc ↔
        B ∈ acc ∨ ∃ req ∈ l, req.Name = B by
    simpa using h m.BuildParams.Requires []
  intro l
  induction l with
  | nil => intro acc; simp
  | cons r l ih =>
    intro acc
    rw [List.foldl_cons, ih]
    by_cases hr : r.Name ∈ acc
    · simp only [hr, if_true, List.mem_cons, exists_eq_or_imp]
      constructor
      · rintro (h | h)
        · exact Or.inl h
        · exact Or.inr (Or.inr h)
      · rintro (h | h | h)
        · exact Or.inl h
        · exact Or.inl (h ▸ hr)
        · exact Or.inr h
    · simp only [hr, if_false, List.mem_append, List.mem_cons, List.not_mem_nil, or_false,
        exists_eq_or_imp]
      constructor
      · rintro ((h | h) | h)
        · exact Or.inl h
        · exact Or.inr (Or.inl h.symm)
        · exact Or.inr (Or.inr h)
      · rintro (h | h | h)
        · exact Or.inl (Or.inl h)
        · exact Or.inl (Or.inr h.symm)
        · exact Or.inr h

theorem graphs_set_of_not_mem (g : graphs) (key : String) (node : graphNode)
    (h : key ∉ g.map Prod.fst) : g.set key node = g ++ [(key, node)] := by
  induction g with
  | nil => rfl
  | cons kn g ih =>
    obtain ⟨k, n⟩ := kn
    simp only [List.map_cons, List.mem_cons, not_or] at h
    have hk : ¬ k = key := fun e => h.1 e.symm
    simp [graphs.set, hk, ih h.2]

theorem buildGraph_of_nodup (mods : List Module) :
    ∀ (index : Nat) (g : graphs), (moduleNames mods).Nodup →
      (∀ x ∈ moduleNames mods, x ∉ g.map Prod.fst) →
      buildGraph mods index g = g ++ (mods.enumFrom index).map (nodeOf []) := by
  induction mods with
  | nil => intro index g _ _; simp [buildGraph]
  | cons m rest ih =>
    intro index g hnd hdis
    simp only [moduleNames, List.map_cons, List.nodup_cons, List.mem_cons, forall_eq_or_imp] at hnd hdis
    rw [buildGraph, graphs_set_of_not_mem g _ _ hdis.1, ih (index + 1) _ hnd.2]
    · simp [List.enumFrom_cons, nodeOf, newGn]
    · intro x hx
      simp only [List.map_append, List.map_cons, List.map_nil, List.mem_append, List.mem_singleton,
        not_or]
      refine ⟨hdis.2 x hx, ?_⟩
      rintro rfl
      exact hnd.1 hx

theorem buildGraph_eq_stateOf (mods : List Module) (hnd : (moduleNames mods).Nodup) :
    buildGraph mods 0 [] = stateOf mods [] := by
  rw [buildGraph_of_nodup mods 0 [] hnd (by simp)]
  have hf : (mods.enum.filter (pending [])) = mods.enum :=
    List.filter_eq_self.2 (fun a _ => by simp [pending])
  unfold stateOf
  rw [hf]
  simp [List.enum]

theorem readyNodes_stateOf (mods : List Module) (res : List String) :
    readyNodes (stateOf mods res) = (mods.enum.filter (ready res)).map (fun im => (nodeOf res im).2) := by
  unfold readyNodes stateOf
  rw [List.map_map, List.filter_map, List.filter_filter]
  congr 1
  apply List.filter_congr
  intro im _
  simp [ready, nodeOf, Bool.and_comm]

theorem readyNames_stateOf (mods : List Module) (res : List String) :
    (readyNodes (stateOf mods res)).map (fun node => node.module) = readyChunk mods res := by
  rw [readyNodes_stateOf, List.map_map]
  rfl

theorem readyIndexes_stateOf (mods : List Module) (res : List String) :
    (readyNodes (stateOf mods res)).map (fun node => node.index) =
      (mods.enum.filter (ready res)).map Prod.fst := by
  rw [readyNodes_stateOf, List.map_map]
  rfl

theorem deleteReady_eq_filter (rn : List graphNode) :
    ∀ g : graphs, deleteReady g rn =
      g.filter (fun kn => decide (kn.1 ∉ rn.map (fun node => node.module))) := by
  induction rn with
  | nil => intro g; simp [deleteReady]
  | cons n rn ih =>
    intro g
    have h := ih (g.delete n.module)
    unfold deleteReady at h ⊢
    rw [List.foldl_cons, h]
    unfold graphs.delete
    rw [List.filter_filter]
    apply List.filter_congr
    intro kn _
    simp only [List.map_cons, List.mem_cons, not_or, ne_eq, Bool.decide_and, Bool.and_comm]

theorem appendReady_eq (idx : List Nat) (mods : List Module) :
    ∀ (index : Nat) (resolved : List String),
      appendReady idx mods index resolved =
        resolved ++ ((mods.enumFrom index).filter (fun im => decide (im.1 ∈ idx))).map
          (fun im => im.2.Name) := by
  induction mods with
  | nil => intro index resolved; simp [appendReady]
  | cons m rest ih =>
    intro index resolved
    rw [appendReady, ih]
    by_cases h : index ∈ idx
    · simp [List.enumFrom_cons, List.filter_cons, h]
    · simp [List.enumFrom_cons, List.filter_cons, h]

theorem mem_map_filter_of_nodup {α β : Type} (f : α → β) (p : α → Bool) (l : List α)
    (hnd : (l.map f).Nodup) (a : α) (ha : a ∈ l) :
    f a ∈ (l.filter p).map f ↔ p a = true := by
  constructor
  · intro h
    obtain ⟨b, hb, hfb⟩ := List.mem_map.1 h
    obtain ⟨hbl, hpb⟩ := List.mem_filter.1 hb
    have : b = a := List.inj_on_of_nodup_map hnd hbl ha hfb
    exact this ▸ hpb
  · intro h
    exact List.mem_map.2 ⟨a, List.mem_filter.2 ⟨ha, h⟩, rfl⟩

theorem enum_fst_nodup (mods : List Module) : (mods.enum.map Prod.fst).Nodup := by
  rw [List.enum_map_fst]
  exact List.nodup_range _

theorem appendReady_stateOf (mods : List Module) (res : List String) :
    appendReady ((readyNodes (stateOf mods res)).map (fun node => node.index)) mods 0 res =
      res ++ readyChunk mods res := by
  rw [appendReady_eq, readyIndexes_stateOf]
  unfold readyChunk
  congr 2
  apply List.filter_congr
  intro im him
  have h := mem_map_filter_of_nodup Prod.fst (ready res) mods.enum (enum_fst_nodup mods) im him
  by_cases hr : ready res im = true
  · simp [hr, h.2 hr]
  · have hn : im.1 ∉ (mods.enum.filter (ready res)).map Prod.fst := fun hm => hr (h.1 hm)
    simp only [Bool.not_eq_true] at hr
    simp [hr, hn]

theorem step_stateOf (mods : List Module) (res : List String) :
    removeReadyDeps (deleteReady (stateOf mods res) (readyNodes (stateOf mods res)))
        ((readyNodes (stateOf mods res)).map (fun node => node.module)) =
      stateOf mods (res ++ readyChunk mods res) := by
  rw [deleteReady_eq_filter, readyNames_stateOf]
  unfold removeReadyDeps stateOf
  rw [List.filter_map, List.filter_filter, List.map_map]
  have hf : mods.enum.filter (fun a => ((fun kn : String × graphNode =>
        decide (kn.1 ∉ readyChunk mods res)) ∘ nodeOf res) a && pending res a) =
      mods.enum.filter (pending (res ++ readyChunk mods res)) := by
    apply List.filter_congr
    intro im _
    simp [pending, nodeOf, Bool.and_comm]
  rw [hf]
  apply List.map_congr_left
  intro im _
  simp [nodeOf, List.filter_filter, Bool.and_comm]

theorem resolveLoop_eq_exit (order : graphs → List graphNode) (mods : List Module) :
    ∀ (fuel : Nat) (g : graphs) (res : List String),
      resolveLoop order mods fuel g res = (loopExit mods fuel g res).map (exitResult order) := by
  intro fuel
  induction fuel with
  | zero => intro g res; rfl
  | succ fuel ih =>
    intro g res
    unfold resolveLoop loopExit
    by_cases h0 : g.length = 0
    · simp [h0, exitResult]
    · by_cases h1 : (readyNodes g).length = 0
      · simp [h0, h1, exitResult]
      · simp only [h0, h1, if_false]
        exact ih _ _

theorem getModulesOrder_eq_exit (order : graphs → List graphNode) (mods : List Module) :
    getModulesOrder order mods =
      (loopExit mods ((buildGraph mods 0 []).length + 1) (buildGraph mods 0 []) []).map
        (exitResult order) := by
  unfold getModulesOrder resolveGraph
  exact resolveLoop_eq_exit order mods _ _ _

theorem loopExit_stateOf_succ (mods : List Module) (fuel : Nat) (res : List String) :
    loopExit mods (fuel + 1) (stateOf mods res) res =
      if (stateOf mods res).length = 0 then some (.resolved res)
      else if (readyChunk mods res).length = 0 then some (.stuck (stateOf mods res))
      else loopExit mods fuel (stateOf mods (res ++ readyChunk mods res))
        (res ++ readyChunk mods res) := by
  rw [loopExit]
  simp only [step_stateOf, appendReady_stateOf]
  have hl : (readyNodes (stateOf mods res)).length = (readyChunk mods res).length := by
    rw [← readyNames_stateOf, List.length_map]
  rw [hl]

theorem enum_snd_mem (mods : List Module) (im : Nat × Module) (h : im ∈ mods.enum) :
    im.2 ∈ mods := by
  have : im.2 ∈ mods.enum.map Prod.snd := List.mem_map.2 ⟨im, h, rfl⟩
  rwa [List.enum_map_snd] at this

theorem readyChunk_sublist (mods : List Module) (res : List String) :
    (readyChunk mods res).Sublist (moduleNames mods) := by
  have h : ((mods.enum.filter (ready res)).map (fun im => im.2.Name)).Sublist
      (mods.enum.map (fun im => im.2.Name)) := (List.filter_sublist _).map _
  have e : mods.enum.map (fun im => im.2.Name) = moduleNames mods := by
    unfold moduleNames
    rw [← List.enum_map_snd mods, List.map_map, List.enum_map_snd]
    rfl
  rw [e] at h
  exact h

theorem mem_readyChunk (mods : List Module) (res : List String) (x : String) :
    x ∈ readyChunk mods res ↔ ∃ im ∈ mods.enum, ready res im = true ∧ im.2.Name = x := by
  unfold readyChunk
  simp only [List.mem_map, List.mem_filter]
  constructor
  · rintro ⟨im, ⟨h1, h2⟩, h3⟩
    exact ⟨im, h1, h2, h3⟩
  · rintro ⟨im, h1, h2, h3⟩
    exact ⟨im, ⟨h1, h2⟩, h3⟩

theorem ready_iff (res : List String) (im : Nat × Module) :
    ready res im = true ↔ im.2.Name ∉ res ∧ ∀ B ∈ depsOf im.2, B ∈ res := by
  simp [ready, pending, List.filter_eq_nil_iff]

theorem name_inj (mods : List Module) (hnd : (moduleNames mods).Nodup) (m m' : Module)
    (hm : m ∈ mods) (hm' : m' ∈ mods) (h : m.Name = m'.Name) : m = m' :=
  List.inj_on_of_nodup_map hnd hm hm' h

theorem Good.nil (mods : List Module) : Good mods [] :=
  ⟨List.nodup_nil, by simp, by simp⟩

theorem Good.step (mods : List Module) (hnd : (moduleNames mods).Nodup) (res : List String)
    (hg : Good mods res) : Good mods (res ++ readyChunk mods res) := by
  have hnot : ∀ x ∈ readyChunk mods res, x ∉ res := by
    intro x hx
    obtain ⟨im, _, hr, rfl⟩ := (mem_readyChunk mods res x).1 hx
    exact ((ready_iff res im).1 hr).1
  refine ⟨?_, ?_, ?_⟩
  · refine List.Nodup.append hg.nodup ((readyChunk_sublist mods res).nodup hnd) ?_
    intro x hx hx'
    exact hnot x hx' hx
  · intro x hx
    rcases List.mem_append.1 hx with h | h
    · exact hg.sub x h
    · exact (readyChunk_sublist mods res).subset h
  · intro m hm hmem B hB
    by_cases hres : m.Name ∈ res
    · obtain ⟨hB1, hB2⟩ := hg.topo m hm hres B hB
      refine ⟨List.mem_append_left _ hB1, ?_⟩
      rw [List.indexOf_append_of_mem hB1, List.indexOf_append_of_mem hres]
      exact hB2
    · have hch : m.Name ∈ readyChunk mods res := by
        rcases List.mem_append.1 hmem with h | h
        · exact absurd h hres
        · exact h
      obtain ⟨im, him, hr, hname⟩ := (mem_readyChunk mods res _).1 hch
      have heq : im.2 = m := name_inj mods hnd _ _ (enum_snd_mem mods im him) hm hname
      have hB1 : B ∈ res := ((ready_iff res im).1 hr).2 B (heq ▸ hB)
      refine ⟨List.mem_append_left _ hB1, ?_⟩
      rw [List.indexOf_append_of_mem hB1, List.indexOf_append_of_not_mem hres]
      have := List.indexOf_lt_length.2 hB1
      omega

theorem Good.length_le (mods : List Module) (res : List String) (hg : Good mods res) :
    res.length ≤ mods.length := by
  have h := (List.subperm_of_subset hg.nodup hg.sub).length_le
  simpa [moduleNames] using h

theorem stateOf_eq_nil_iff (mods : List Module) (res : List String) :
    stateOf mods res = [] ↔ ∀ m ∈ mods, m.Name ∈ res := by
  unfold stateOf
  rw [List.map_eq_nil_iff, List.filter_eq_nil_iff]
  constructor
  · intro h m hm
    obtain ⟨im, him, rfl⟩ : ∃ im ∈ mods.enum, im.2 = m := by
      have : m ∈ mods.enum.map Prod.snd := by rw [List.enum_map_snd]; exact hm
      obtain ⟨im, h1, h2⟩ := List.mem_map.1 this
      exact ⟨im, h1, h2⟩
    have := h im him
    simpa [pending] using this
  · intro h im him
    simp [pending, h im.2 (enum_snd_mem mods im him)]

theorem loopExit_stateOf (mods : List Module) (hnd : (moduleNames mods).Nodup) :
    ∀ (fuel : Nat) (res : List String), Good mods res → mods.length < fuel + res.length →
      ∃ x, loopExit mods fuel (stateOf mods res) res = some x ∧ ExitSpec mods x := by
  intro fuel
  induction fuel with
  | zero =>
    intro res hg hlt
    have := Good.length_le mods res hg
    omega
  | succ fuel ih =>
    intro res hg hlt
    rw [loopExit_stateOf_succ]
    by_cases h0 : (stateOf mods res).length = 0
    · rw [if_pos h0]
      exact ⟨_, rfl, hg, (stateOf_eq_nil_iff mods res).1 (List.length_eq_zero.1 h0)⟩
    · rw [if_neg h0]
      by_cases h1 : (readyChunk mods res).length = 0
      · rw [if_pos h1]
        refine ⟨_, rfl, res, hg, rfl, ?_, List.length_eq_zero.1 h1⟩
        by_contra hall
        push_neg at hall
        exact h0 (List.length_eq_zero.2 ((stateOf_eq_nil_iff mods res).2 hall))
      · rw [if_neg h1]
        apply ih _ (Good.step mods hnd res hg)
        rw [List.length_append]
        omega

theorem stateOf_nil_length (mods : List Module) : (stateOf mods []).length = mods.length := by
  unfold stateOf
  rw [List.length_map, List.filter_eq_self.2 (fun a _ => by simp [pending]), List.enum_length]

theorem exit_of_nodup (mods : List Module) (hnd : (moduleNames mods).Nodup) :
    ∃ x, loopExit mods ((buildGraph mods 0 []).length + 1) (buildGraph mods 0 []) [] = some x ∧
      ExitSpec mods x := by
  rw [buildGraph_eq_stateOf mods hnd, stateOf_nil_length]
  exact loopExit_stateOf mods hnd _ [] (Good.nil mods) (by simp)

theorem Good.perm (mods : List Module) (hnd : (moduleNames mods).Nodup) (out : List String)
    (hg : Good mods out) (hall : ∀ m ∈ mods, m.Name ∈ out) : out.Perm (moduleNames mods) := by
  rw [List.perm_ext_iff_of_nodup hg.nodup hnd]
  intro a
  constructor
  · exact hg.sub a
  · intro ha
    obtain ⟨m, hm, rfl⟩ := List.mem_map.1 ha
    exact hall m hm

theorem ok_spec (order : graphs → List graphNode) (mods : List Module)
    (hnd : (moduleNames mods).Nodup) (out : List String)
    (h : getModulesOrder order mods = some (.ok out)) :
    Good mods out ∧ ∀ m ∈ mods, m.Name ∈ out := by
  obtain ⟨x, hx, hspec⟩ := exit_of_nodup mods hnd
  rw [getModulesOrder_eq_exit, hx] at h
  cases x with
  | resolved o =>
    simp only [Option.map_some', exitResult, Option.some.injEq, Except.ok.injEq] at h
    subst h
    exact hspec
  | stuck g => simp [exitResult] at h

theorem total_of_nodup (order : graphs → List graphNode) (mods : List Module)
    (hnd : (moduleNames mods).Nodup) :
    (∃ out, getModulesOrder order mods = some (.ok out)) ∨
      ∃ res, Good mods res ∧ (∃ m ∈ mods, m.Name ∉ res) ∧ readyChunk mods res = [] ∧
        getModulesOrder order mods = some (.error
          (circularError (provideCyclicModules (order (stateOf mods res))).1
            (provideCyclicModules (order (stateOf mods res))).2)) := by
  obtain ⟨x, hx, hspec⟩ := exit_of_nodup mods hnd
  rw [getModulesOrder_eq_exit, hx]
  cases x with
  | resolved o => exact Or.inl ⟨o, rfl⟩
  | stuck g =>
    obtain ⟨res, hg, rfl, hm, hc⟩ := hspec
    exact Or.inr ⟨res, hg, hm, hc, rfl⟩

theorem Good.indexOf_lt_of_transGen (mods : List Module) (out : List String) (hg : Good mods out)
    (hall : ∀ m ∈ mods, m.Name ∈ out) (A B : String)
    (h : Relation.TransGen (RequiresName mods) A B) : out.indexOf B < out.indexOf A := by
  have hstep : ∀ X Y, RequiresName mods X Y → out.indexOf Y < out.indexOf X := by
    rintro X Y ⟨m, hm, rfl, req, hreq, rfl⟩
    exact (hg.topo m hm (hall m hm) _ ((mem_depsOf m _).2 ⟨req, hreq, rfl⟩)).2
  induction h with
  | single h1 => exact hstep _ _ h1
  | tail _ h2 ih => exact lt_trans (hstep _ _ h2) ih

theorem stuck_absurd (mods : List Module) (res : List String)
    (hdecl : ∀ A B, RequiresName mods A B → B ∈ moduleNames mods)
    (hacyc : ¬ HasCycle mods)
    (hm : ∃ m ∈ mods, m.Name ∉ res) (hc : readyChunk mods res = []) : False := by
  have hsucc : ∀ a, a ∈ moduleNames mods → a ∉ res →
      ∃ b, b ∈ moduleNames mods ∧ b ∉ res ∧ RequiresName mods a b := by
    intro a ha hares
    obtain ⟨m, hmm, rfl⟩ := List.mem_map.1 ha
    obtain ⟨im, him, rfl⟩ : ∃ im ∈ mods.enum, im.2 = m := by
      have : m ∈ mods.enum.map Prod.snd := by rw [List.enum_map_snd]; exact hmm
      obtain ⟨im, h1, h2⟩ := List.mem_map.1 this
      exact ⟨im, h1, h2⟩
    have hnr : ¬ ready res im = true := by
      intro hr
      have : im.2.Name ∈ readyChunk mods res := (mem_readyChunk mods res _).2 ⟨im, him, hr, rfl⟩
      rw [hc] at this
      exact List.not_mem_nil _ this
    rw [ready_iff] at hnr
    push_neg at hnr
    obtain ⟨B, hB, hBres⟩ := hnr hares
    obtain ⟨req, hreq, rfl⟩ := (mem_depsOf im.2 B).1 hB
    have hR : RequiresName mods im.2.Name req.Name := ⟨im.2, hmm, rfl, req, hreq, rfl⟩
    exact ⟨req.Name, hdecl _ _ hR, hBres, hR⟩
  let r : String → String → Prop := fun x y => Relation.TransGen (RequiresName mods) y x
  haveI : IsStrictOrder String r :=
    { irrefl := fun a h => hacyc ⟨a, h⟩
      trans := fun a b c hab hbc => Relation.TransGen.trans hbc hab }
  have hwf : ({x | x ∈ moduleNames mods} : Set String).WellFoundedOn r :=
    (List.finite_toSet (moduleNames mods)).wellFoundedOn
  rw [Set.wellFoundedOn_iff] at hwf
  obtain ⟨m, hmm, hmres⟩ := hm
  have hne : ({x | x ∈ moduleNames mods ∧ x ∉ res} : Set String).Nonempty :=
    ⟨m.Name, List.mem_map.2 ⟨m, hmm, rfl⟩, hmres⟩
  obtain ⟨a, ⟨ha1, ha2⟩, hmin⟩ := hwf.has_min _ hne
  obtain ⟨b, hb1, hb2, hR⟩ := hsucc a ha1 ha2
  exact hmin b ⟨hb1, hb2⟩ ⟨Relation.TransGen.single hR, hb1, ha1⟩

theorem readyChunk_nil_of_no_requires (mods : List Module) (hreq : ∀ m ∈ mods, m.BuildParams.Requires = []) :
    readyChunk mods [] = moduleNames mods := by
  unfold readyChunk
  have hf : mods.enum.filter (ready []) = mods.enum := by
    apply List.filter_eq_self.2
    intro im him
    rw [ready_iff]
    refine ⟨List.not_mem_nil _, ?_⟩
    intro B hB
    obtain ⟨req, hr, _⟩ := (mem_depsOf im.2 B).1 hB
    rw [hreq im.2 (enum_snd_mem mods im him)] at hr
    exact absurd hr (List.not_mem_nil _)
  rw [hf]
  unfold moduleNames
  rw [← List.enum_map_snd mods, List.map_map, List.enum_map_snd]
  rfl

/-- C1: when the module names are pairwise distinct and `getModulesOrder`
succeeds, every name required by a module occurs in the returned order at a
position strictly before that module. -/
theorem getModulesOrder_topological (order : graphs → List graphNode) (mods : List Module)
    (out : List String) (hnd : (moduleNames mods).Nodup)
    (h : getModulesOrder order mods = some (.ok out))
    (A : Module) (hA : A ∈ mods) (req : BuildRequires) (hreq : req ∈ A.BuildParams.Requires) :
    req.Name ∈ out ∧ A.Name ∈ out ∧ out.indexOf req.Name < out.indexOf A.Name := by
  obtain ⟨hg, hall⟩ := ok_spec order mods hnd out h
  obtain ⟨h1, h2⟩ := hg.topo A hA (hall A hA) req.Name ((mem_depsOf A _).2 ⟨req, hreq, rfl⟩)
  exact ⟨h1, hall A hA, h2⟩

theorem getModulesOrder_topological_witness :
    getModulesOrder storedOrder [⟨"C", ⟨[⟨"B"⟩]⟩⟩, ⟨"B", ⟨[⟨"A"⟩]⟩⟩, ⟨"A", ⟨[]⟩⟩]
        = some (.ok ["A", "B", "C"]) ∧
      "B" ∈ ["A", "B", "C"] ∧ "C" ∈ ["A", "B", "C"] ∧
      List.indexOf "B" ["A", "B", "C"] < List.indexOf "C" ["A", "B", "C"] :=
  ⟨by decide,
   getModulesOrder_topological storedOrder [⟨"C", ⟨[⟨"B"⟩]⟩⟩, ⟨"B", ⟨[⟨"A"⟩]⟩⟩, ⟨"A", ⟨[]⟩⟩]
    ["A", "B", "C"] (by decide) (by decide) ⟨"C", ⟨[⟨"B"⟩]⟩⟩ (by decide) ⟨"B"⟩ (by decide)⟩

/-- C2: when the module names are pairwise distinct and `getModulesOrder`
succeeds, the returned order is a permutation of the module names and has no
duplicates: each module name occurs exactly once and nothing else occurs. -/
theorem getModulesOrder_perm (order : graphs → List graphNode) (mods : List Module)
    (out : List String) (hnd : (moduleNames mods).Nodup)
    (h : getModulesOrder order mods = some (.ok out)) :
    out.Perm (moduleNames mods) ∧ out.Nodup ∧
      ∀ x, out.count x = if x ∈ moduleNames mods then 1 else 0 := by
  obtain ⟨hg, hall⟩ := ok_spec order mods hnd out h
  have hp := Good.perm mods hnd out hg hall
  refine ⟨hp, hg.nodup, ?_⟩
  intro x
  by_cases hx : x ∈ moduleNames mods
  · rw [if_pos hx]
    exact List.count_eq_one_of_mem hg.nodup (hp.mem_iff.2 hx)
  · rw [if_neg hx]
    exact List.count_eq_zero_of_not_mem (fun hm => hx (hp.mem_iff.1 hm))

theorem getModulesOrder_perm_witness :
    getModulesOrder storedOrder [⟨"C", ⟨[⟨"B"⟩]⟩⟩, ⟨"B", ⟨[⟨"A"⟩]⟩⟩, ⟨"A", ⟨[]⟩⟩]
        = some (.ok ["A", "B", "C"]) ∧
      List.Perm ["A", "B", "C"] (moduleNames [⟨"C", ⟨[⟨"B"⟩]⟩⟩, ⟨"B", ⟨[⟨"A"⟩]⟩⟩, ⟨"A", ⟨[]⟩⟩]) ∧
      List.Nodup ["A", "B", "C"] :=
  ⟨by decide,
   (getModulesOrder_perm storedOrder [⟨"C", ⟨[⟨"B"⟩]⟩⟩, ⟨"B", ⟨[⟨"A"⟩]⟩⟩, ⟨"A", ⟨[]⟩⟩]
      ["A", "B", "C"] (by decide) (by decide)).1,
   (getModulesOrder_perm storedOrder [⟨"C", ⟨[⟨"B"⟩]⟩⟩, ⟨"B", ⟨[⟨"A"⟩]⟩⟩, ⟨"A", ⟨[]⟩⟩]
      ["A", "B", "C"] (by decide) (by decide)).2.1⟩

/-- C3, as stated, fails: the first module requires itself, but the second
declaration of the same name replaces its node in the map, and the call
succeeds. -/
theorem cycle_shadowed_by_duplicate :
    HasCycle [⟨"A", ⟨[⟨"A"⟩]⟩⟩, ⟨"A", ⟨[]⟩⟩] ∧
      getModulesOrder storedOrder [⟨"A", ⟨[⟨"A"⟩]⟩⟩, ⟨"A", ⟨[]⟩⟩] = some (.ok ["A"]) :=
  ⟨⟨"A", Relation.TransGen.single
      ⟨⟨"A", ⟨[⟨"A"⟩]⟩⟩, by decide, rfl, ⟨"A"⟩, by decide, rfl⟩⟩, by decide⟩

/-- C3, amended: when the module names are pairwise distinct and the requires
relation has a cycle (a self-requirement included), `getModulesOrder` returns
the circular-dependency error and no order. -/
theorem getModulesOrder_cycle (order : graphs → List graphNode) (mods : List Module)
    (hnd : (moduleNames mods).Nodup) (hcyc : HasCycle mods) :
    ∃ module1 module2,
      getModulesOrder order mods = some (.error (circularError module1 module2)) := by
  rcases total_of_nodup order mods hnd with ⟨out, hout⟩ | ⟨res, _, _, _, herr⟩
  · obtain ⟨hg, hall⟩ := ok_spec order mods hnd out hout
    obtain ⟨A, hA⟩ := hcyc
    exact absurd (Good.indexOf_lt_of_transGen mods out hg hall A A hA) (lt_irrefl _)
  · exact ⟨_, _, herr⟩

theorem getModulesOrder_cycle_witness :
    HasCycle [⟨"X", ⟨[⟨"Y"⟩]⟩⟩, ⟨"Y", ⟨[⟨"X"⟩]⟩⟩] ∧
      ∃ module1 module2, getModulesOrder storedOrder [⟨"X", ⟨[⟨"Y"⟩]⟩⟩, ⟨"Y", ⟨[⟨"X"⟩]⟩⟩]
        = some (.error (circularError module1 module2)) :=
  have hc : HasCycle [⟨"X", ⟨[⟨"Y"⟩]⟩⟩, ⟨"Y", ⟨[⟨"X"⟩]⟩⟩] :=
    ⟨"X", Relation.TransGen.tail
      (Relation.TransGen.single ⟨⟨"X", ⟨[⟨"Y"⟩]⟩⟩, by decide, rfl, ⟨"Y"⟩, by decide, rfl⟩)
      ⟨⟨"Y", ⟨[⟨"X"⟩]⟩⟩, by decide, rfl, ⟨"X"⟩, by decide, rfl⟩⟩
  ⟨hc, getModulesOrder_cycle storedOrder [⟨"X", ⟨[⟨"Y"⟩]⟩⟩, ⟨"Y", ⟨[⟨"X"⟩]⟩⟩] (by decide) hc⟩

/-- C4: when the module names are pairwise distinct, every required name is
the name of a declared module and the requires relation has no cycle,
`getModulesOrder` returns an order and no error; and the empty module list
gives the empty order. -/
theorem getModulesOrder_complete (order : graphs → List graphNode) (mods : List Module)
    (hnd : (moduleNames mods).Nodup)
    (hdecl : ∀ A B, RequiresName mods A B → B ∈ moduleNames mods)
    (hacyc : ¬ HasCycle mods) :
    (∃ out, getModulesOrder order mods = some (.ok out)) ∧
      getModulesOrder order [] = some (.ok []) := by
  refine ⟨?_, rfl⟩
  rcases total_of_nodup order mods hnd with hok | ⟨res, _, hm, hc, _⟩
  · exact hok
  · exact absurd (stuck_absurd mods res hdecl hacyc hm hc) id

theorem getModulesOrder_complete_witness :
    (∃ out, getModulesOrder storedOrder [⟨"B", ⟨[⟨"A"⟩]⟩⟩, ⟨"A", ⟨[]⟩⟩] = some (.ok out)) ∧
      getModulesOrder storedOrder [] = some (.ok []) := by
  have hR : ∀ X Y, RequiresName [⟨"B", ⟨[⟨"A"⟩]⟩⟩, ⟨"A", ⟨[]⟩⟩] X Y → X = "B" ∧ Y = "A" := by
    rintro X Y ⟨m, hm, rfl, req, hreq, rfl⟩
    simp only [List.mem_cons, List.mem_singleton, List.not_mem_nil, or_false] at hm
    rcases hm with rfl | rfl
    · simp only [List.mem_singleton] at hreq
      subst hreq
      exact ⟨rfl, rfl⟩
    · exact absurd hreq (List.not_mem_nil _)
  refine getModulesOrder_complete storedOrder [⟨"B", ⟨[⟨"A"⟩]⟩⟩, ⟨"A", ⟨[]⟩⟩] (by decide) ?_ ?_
  · intro X Y h
    rw [(hR X Y h).2]
    decide
  · rintro ⟨X, hX⟩
    obtain ⟨Y, h1, _⟩ := Relation.TransGen.head'_iff.1 hX
    obtain ⟨Z, _, h2⟩ := Relation.TransGen.tail'_iff.1 hX
    have e1 := (hR _ _ h1).1
    have e2 := (hR _ _ h2).2
    rw [e1] at e2
    exact absurd e2 (by decide)

/-- C5: when the module names are pairwise distinct and no module declares a
requirement, `getModulesOrder` succeeds and returns the module names in their
declaration order. -/
theorem getModulesOrder_stable (order : graphs → List graphNode) (mods : List Module)
    (hnd : (moduleNames mods).Nodup) (hreq : ∀ m ∈ mods, m.BuildParams.Requires = []) :
    getModulesOrder order mods = some (.ok (moduleNames mods)) := by
  rw [getModulesOrder_eq_exit, buildGraph_eq_stateOf mods hnd, stateOf_nil_length]
  cases mods with
  | nil => rfl
  | cons m rest =>
    have hall : stateOf (m :: rest) (moduleNames (m :: rest)) = [] :=
      (stateOf_eq_nil_iff _ _).2 (fun x hx => List.mem_map.2 ⟨x, hx, rfl⟩)
    have h0 : ¬ (stateOf (m :: rest) []).length = 0 := by
      rw [stateOf_nil_length]
      simp
    have h1 : ¬ (readyChunk (m :: rest) []).length = 0 := by
      rw [readyChunk_nil_of_no_requires _ hreq]
      simp [moduleNames]
    rw [loopExit_stateOf_succ, if_neg h0, if_neg h1, readyChunk_nil_of_no_requires _ hreq,
      List.nil_append, List.length_cons, loopExit_stateOf_succ, hall]
    rfl

theorem getModulesOrder_stable_witness :
    getModulesOrder storedOrder [⟨"A", ⟨[]⟩⟩, ⟨"B", ⟨[]⟩⟩, ⟨"C", ⟨[]⟩⟩] = some (.ok ["A", "B", "C"]) :=
  getModulesOrder_stable storedOrder [⟨"A", ⟨[]⟩⟩, ⟨"B", ⟨[]⟩⟩, ⟨"C", ⟨[]⟩⟩] (by decide) (by decide)

/-- C6, as stated, fails: the first module requires the undeclared name `Z`,
but the second declaration of the same name replaces its node in the map, and
the call succeeds. -/
theorem unknown_dependency_shadowed_by_duplicate :
    (∃ m ∈ ([⟨"A", ⟨[⟨"Z"⟩]⟩⟩, ⟨"A", ⟨[]⟩⟩] : List Module), ∃ req ∈ m.BuildParams.Requires,
        req.Name ∉ moduleNames [⟨"A", ⟨[⟨"Z"⟩]⟩⟩, ⟨"A", ⟨[]⟩⟩]) ∧
      getModulesOrder storedOrder [⟨"A", ⟨[⟨"Z"⟩]⟩⟩, ⟨"A", ⟨[]⟩⟩] = some (.ok ["A"]) :=
  ⟨⟨⟨"A", ⟨[⟨"Z"⟩]⟩⟩, by decide, ⟨"Z"⟩, by decide, by decide⟩, by decide⟩

/-- C6, amended: when the module names are pairwise distinct and some module
requires a name that no declared module has, `getModulesOrder` fails with the
circular-dependency error, the one error of `resolveGraph`. -/
theorem getModulesOrder_unknown_dependency (order : graphs → List graphNode)
    (mods : List Module) (hnd : (moduleNames mods).Nodup)
    (m : Module) (hm : m ∈ mods) (req : BuildRequires) (hreq : req ∈ m.BuildParams.Requires)
    (hunknown : req.Name ∉ moduleNames mods) :
    ∃ module1 module2,
      getModulesOrder order mods = some (.error (circularError module1 module2)) := by
  rcases total_of_nodup order mods hnd with ⟨out, hout⟩ | ⟨res, _, _, _, herr⟩
  · obtain ⟨hg, hall⟩ := ok_spec order mods hnd out hout
    have h1 := (hg.topo m hm (hall m hm) req.Name ((mem_depsOf m _).2 ⟨req, hreq, rfl⟩)).1
    exact absurd (hg.sub _ h1) hunknown
  · exact ⟨_, _, herr⟩

theorem getModulesOrder_unknown_dependency_witness :
    ∃ module1 module2, getModulesOrder storedOrder [⟨"A", ⟨[⟨"Z"⟩]⟩⟩, ⟨"B", ⟨[]⟩⟩]
      = some (.error (circularError module1 module2)) :=
  getModulesOrder_unknown_dependency storedOrder [⟨"A", ⟨[⟨"Z"⟩]⟩⟩, ⟨"B", ⟨[]⟩⟩] (by decide)
    ⟨"A", ⟨[⟨"Z"⟩]⟩⟩ (by decide) ⟨"Z"⟩ (by decide) (by decide)

theorem graphs_set_of_mem (g : graphs) (key : String) (node : graphNode)
    (h : key ∈ g.map Prod.fst) : (g.set key node).map Prod.fst = g.map Prod.fst := by
  induction g with
  | nil => simp at h
  | cons kn g ih =>
    obtain ⟨k, n⟩ := kn
    by_cases hk : k = key
    · simp [graphs.set, hk]
    · have hin : key ∈ g.map Prod.fst := by
        simp only [List.map_cons, List.mem_cons] at h
        rcases h with h | h
        · exact absurd h.symm hk
        · exact h
      simp [graphs.set, hk, ih hin]

theorem mem_graphs_set (g : graphs) (key : String) (node : graphNode) (kn : String × graphNode)
    (h : kn ∈ g.set key node) : kn ∈ g ∨ kn = (key, node) := by
  induction g with
  | nil =>
    simp only [graphs.set, List.mem_singleton] at h
    exact Or.inr h
  | cons a g ih =>
    obtain ⟨k, n⟩ := a
    by_cases hk : k = key
    · simp only [graphs.set, hk, if_true, List.mem_cons] at h
      rcases h with h | h
      · exact Or.inr h
      · exact Or.inl (List.mem_cons_of_mem _ h)
    · simp only [graphs.set, hk, if_false, List.mem_cons] at h
      rcases h with h | h
      · exact Or.inl (h ▸ List.mem_cons_self _ _)
      · rcases ih h with h' | h'
        · exact Or.inl (List.mem_cons_of_mem _ h')
        · exact Or.inr h'

theorem WFg.set (g : graphs) (hg : WFg g) (key : String) (node : graphNode)
    (hk : node.module = key) : WFg (g.set key node) := by
  refine ⟨?_, ?_⟩
  · by_cases h : key ∈ g.map Prod.fst
    · rw [graphs_set_of_mem g key node h]
      exact hg.1
    · rw [graphs_set_of_not_mem g key node h, List.map_append]
      refine List.Nodup.append hg.1 (by simp) ?_
      intro x hx hx'
      simp only [List.map_cons, List.map_nil, List.mem_singleton] at hx'
      exact h (hx' ▸ hx)
  · intro kn hkn
    rcases mem_graphs_set g key node kn hkn with h | h
    · exact hg.2 kn h
    · rw [h]
      exact hk

theorem WFg.buildGraph (mods : List Module) :
    ∀ (index : Nat) (g : graphs), WFg g → WFg (buildGraph mods index g) := by
  induction mods with
  | nil => intro index g hg; exact hg
  | cons m rest ih =>
    intro index g hg
    rw [Mta.buildGraph]
    exact ih _ _ (WFg.set g hg _ _ rfl)

theorem WFg.filter (g : graphs) (hg : WFg g) (p : String × graphNode → Bool) :
    WFg (g.filter p) :=
  ⟨((List.filter_sublist g).map Prod.fst).nodup hg.1,
   fun kn hkn => hg.2 kn (List.mem_of_mem_filter hkn)⟩

theorem WFg.removeReadyDeps (g : graphs) (hg : WFg g) (names : List String) :
    WFg (removeReadyDeps g names) := by
  unfold Mta.removeReadyDeps
  refine ⟨?_, ?_⟩
  · rw [List.map_map]
    exact hg.1
  · intro kn hkn
    obtain ⟨a, ha, rfl⟩ := List.mem_map.1 hkn
    exact hg.2 a ha

theorem WFg.stuck (mods : List Module) :
    ∀ (fuel : Nat) (g : graphs) (res : List String) (g' : graphs), WFg g →
      loopExit mods fuel g res = some (.stuck g') → WFg g' ∧ g'.length ≠ 0 := by
  intro fuel
  induction fuel with
  | zero => intro g res g' _ h; simp [loopExit] at h
  | succ fuel ih =>
    intro g res g' hg h
    rw [loopExit] at h
    by_cases h0 : g.length = 0
    · simp [h0] at h
    · rw [if_neg h0] at h
      by_cases h1 : (readyNodes g).length = 0
      · simp only [h1, if_true, Option.some.injEq, LoopExit.stuck.injEq] at h
        subst h
        exact ⟨hg, h0⟩
      · simp only [h1, if_false] at h
        refine ih _ _ g' ?_ h
        apply WFg.removeReadyDeps
        rw [deleteReady_eq_filter]
        exact WFg.filter g hg _

theorem error_exit (order : graphs → List graphNode) (mods : List Module) (e : String)
    (h : getModulesOrder order mods = some (.error e)) :
    ∃ overleft, remainingAtFailure mods = some overleft ∧ WFg overleft ∧ overleft.length ≠ 0 ∧
      e = circularError (provideCyclicModules (order overleft)).1
        (provideCyclicModules (order overleft)).2 := by
  rw [getModulesOrder_eq_exit] at h
  cases hx : loopExit mods ((buildGraph mods 0 []).length + 1) (buildGraph mods 0 []) [] with
  | none => rw [hx] at h; simp at h
  | some x =>
    rw [hx] at h
    cases x with
    | resolved o => simp [exitResult] at h
    | stuck g =>
      simp only [Option.map_some', exitResult, Option.some.injEq, Except.error.injEq] at h
      have hwf := WFg.stuck mods _ _ _ g
        (WFg.buildGraph mods 0 [] ⟨List.nodup_nil, by simp⟩) hx
      refine ⟨g, ?_, hwf.1, hwf.2, h.symm⟩
      unfold remainingAtFailure
      rw [hx]

theorem provideCyclicModules_names (l : List graphNode) (hl : l.length ≠ 0)
    (hnd : (l.map (fun node => node.module)).Nodup) :
    (provideCyclicModules l).1 ∈ l.map (fun node => node.module) ∧
      (2 ≤ l.length → (provideCyclicModules l).2 ∈ l.map (fun node => node.module) ∧
        (provideCyclicModules l).1 ≠ (provideCyclicModules l).2) := by
  match l, hl, hnd with
  | [], hl, _ => exact absurd rfl hl
  | [n], _, _ =>
    refine ⟨by simp [provideCyclicModules, provideCyclicModulesLoop], ?_⟩
    intro h2
    simp at h2
  | n1 :: n2 :: rest, _, hnd =>
    have h12 : n1.module ≠ n2.module := by
      intro e
      simp only [List.map_cons, List.nodup_cons, List.mem_cons, not_or] at hnd
      exact hnd.1.1 e
    refine ⟨by simp [provideCyclicModules, provideCyclicModulesLoop], ?_⟩
    intro _
    refine ⟨by simp [provideCyclicModules, provideCyclicModulesLoop], ?_⟩
    simpa [provideCyclicModules, provideCyclicModulesLoop] using h12

/-- C7, as stated, fails: with the single module `M` requiring itself one node
remains at the failure, and the second reported name is the empty string, which
is not the name of a remaining node. -/
theorem cyclic_names_single_node :
    getModulesOrder storedOrder [⟨"M", ⟨[⟨"M"⟩]⟩⟩] = some (.error (circularError "M" "")) ∧
      remainingAtFailure [⟨"M", ⟨[⟨"M"⟩]⟩⟩] = some [("M", ⟨"M", ["M"], 0⟩)] ∧
      provideCyclicModules (storedOrder [("M", ⟨"M", ["M"], 0⟩)]) = ("M", "") ∧
      "" ∉ [("M", (⟨"M", ["M"], 0⟩ : graphNode))].map (fun kn => kn.2.module) := by
  refine ⟨by decide, by decide, by decide, by decide⟩

/-- C7, amended: whenever `getModulesOrder` fails, the first name reported in
the error is the name of a node still remaining at the failure; and when at
least two nodes remain, the second reported name is the name of a remaining
node too and differs from the first.  This holds for every iteration order of
the remaining-node map. -/
theorem getModulesOrder_error_names (order : graphs → List graphNode) (hord : IsIteration order)
    (mods : List Module) (e : String) (h : getModulesOrder order mods = some (.error e)) :
    ∃ overleft, remainingAtFailure mods = some overleft ∧
      e = circularError (provideCyclicModules (order overleft)).1
        (provideCyclicModules (order overleft)).2 ∧
      (provideCyclicModules (order overleft)).1 ∈ overleft.map (fun kn => kn.2.module) ∧
      (2 ≤ overleft.length →
        (provideCyclicModules (order overleft)).2 ∈ overleft.map (fun kn => kn.2.module) ∧
        (provideCyclicModules (order overleft)).1 ≠ (provideCyclicModules (order overleft)).2) := by
  obtain ⟨g, hrem, hwf, hlen, he⟩ := error_exit order mods e h
  have hperm : ((order g).map (fun node => node.module)).Perm (g.map (fun kn => kn.2.module)) := by
    have := (hord g).map (fun node : graphNode => node.module)
    rwa [List.map_map] at this
  have hkeys : g.map (fun kn => kn.2.module) = g.map Prod.fst :=
    List.map_congr_left (fun kn hkn => hwf.2 kn hkn)
  have hnd : ((order g).map (fun node => node.module)).Nodup := by
    rw [hperm.nodup_iff, hkeys]
    exact hwf.1
  have hl : (order g).length = g.length := by
    have := (hord g).length_eq
    rwa [List.length_map] at this
  obtain ⟨h1, h2⟩ := provideCyclicModules_names (order g) (by rw [hl]; exact hlen) hnd
  refine ⟨g, hrem, he, hperm.mem_iff.1 h1, ?_⟩
  intro hge
  obtain ⟨h3, h4⟩ := h2 (by rw [hl]; exact hge)
  exact ⟨hperm.mem_iff.1 h3, h4⟩

theorem getModulesOrder_error_names_witness :
    ∃ overleft, remainingAtFailure [⟨"X", ⟨[⟨"Y"⟩]⟩⟩, ⟨"Y", ⟨[⟨"X"⟩]⟩⟩] = some overleft ∧
      circularError "X" "Y" = circularError (provideCyclicModules (storedOrder overleft)).1
        (provideCyclicModules (storedOrder overleft)).2 ∧
      (provideCyclicModules (storedOrder overleft)).1 ∈ overleft.map (fun kn => kn.2.module) ∧
      (2 ≤ overleft.length →
        (provideCyclicModules (storedOrder overleft)).2 ∈ overleft.map (fun kn => kn.2.module) ∧
        (provideCyclicModules (storedOrder overleft)).1 ≠
          (provideCyclicModules (storedOrder overleft)).2) :=
  getModulesOrder_error_names storedOrder (fun _ => List.Perm.refl _)
    [⟨"X", ⟨[⟨"Y"⟩]⟩⟩, ⟨"Y", ⟨[⟨"X"⟩]⟩⟩] (circularError "X" "Y") (by decide)

/-- C16: whenever `getModulesOrder` fails while at least two nodes remain
unresolved, the error names two distinct module names, both names of remaining
nodes, for every iteration order of the remaining-node map. -/
theorem getModulesOrder_two_remaining (order : graphs → List graphNode)
    (hord : IsIteration order) (mods : List Module) (e : String) (overleft : graphs)
    (h : getModulesOrder order mods = some (.error e))
    (hrem : remainingAtFailure mods = some overleft) (htwo : 2 ≤ overleft.length) :
    ∃ module1 module2, e = circularError module1 module2 ∧ module1 ≠ module2 ∧
      module1 ∈ overleft.map (fun kn => kn.2.module) ∧
      module2 ∈ overleft.map (fun kn => kn.2.module) := by
  obtain ⟨g, hrem', hwf, hlen, he⟩ := error_exit order mods e h
  rw [hrem] at hrem'
  simp only [Option.some.injEq] at hrem'
  subst hrem'
  have hperm : ((order overleft).map (fun node => node.module)).Perm
      (overleft.map (fun kn => kn.2.module)) := by
    have := (hord overleft).map (fun node : graphNode => node.module)
    rwa [List.map_map] at this
  have hkeys : overleft.map (fun kn => kn.2.module) = overleft.map Prod.fst :=
    List.map_congr_left (fun kn hkn => hwf.2 kn hkn)
  have hnd : ((order overleft).map (fun node => node.module)).Nodup := by
    rw [hperm.nodup_iff, hkeys]
    exact hwf.1
  have hl : (order overleft).length = overleft.length := by
    have := (hord overleft).length_eq
    rwa [List.length_map] at this
  obtain ⟨h1, h2⟩ := provideCyclicModules_names (order overleft) (by rw [hl]; exact hlen) hnd
  obtain ⟨h3, h4⟩ := h2 (by rw [hl]; exact htwo)
  exact ⟨_, _, he, h4, hperm.mem_iff.1 h1, hperm.mem_iff.1 h3⟩

theorem getModulesOrder_two_remaining_witness :
    ∃ module1 module2,
      "Circular dependency found. Check modules Y and X" = circularError module1 module2 ∧
      module1 ≠ module2 ∧
      module1 ∈ [("X", (⟨"X", ["Y"], 0⟩ : graphNode)), ("Y", ⟨"Y", ["X"], 1⟩)].map
        (fun kn => kn.2.module) ∧
      module2 ∈ [("X", (⟨"X", ["Y"], 0⟩ : graphNode)), ("Y", ⟨"Y", ["X"], 1⟩)].map
        (fun kn => kn.2.module) :=
  getModulesOrder_two_remaining reversedOrder (fun _ => List.reverse_perm _)
    [⟨"X", ⟨[⟨"Y"⟩]⟩⟩, ⟨"Y", ⟨[⟨"X"⟩]⟩⟩] _ _ (by decide) (by decide) (by decide)

theorem step_length_lt (g : graphs) (hg : WFg g) (h : ¬ (readyNodes g).length = 0) :
    (removeReadyDeps (deleteReady g (readyNodes g))
      ((readyNodes g).map (fun node => node.module))).length < g.length := by
  unfold removeReadyDeps
  rw [List.length_map, deleteReady_eq_filter, List.length_filter_lt_length_iff_exists]
  obtain ⟨n, hn⟩ := List.exists_mem_of_length_pos (Nat.pos_of_ne_zero h)
  have hn' := hn
  unfold readyNodes at hn'
  obtain ⟨kn, hkn, rfl⟩ := List.mem_map.1 (List.mem_filter.1 hn').1
  refine ⟨kn, hkn, ?_⟩
  have : kn.1 ∈ (readyNodes g).map (fun node => node.module) :=
    List.mem_map.2 ⟨kn.2, hn, hg.2 kn hkn⟩
  simp [this]

theorem loopExit_total (mods : List Module) :
    ∀ (n : Nat) (g : graphs) (res : List String), WFg g → g.length ≤ n →
      ∃ x, ∀ fuel, g.length < fuel → loopExit mods fuel g res = some x := by
  intro n
  induction n with
  | zero =>
    intro g res _ hle
    refine ⟨.resolved res, ?_⟩
    intro fuel hf
    obtain ⟨f, rfl⟩ : ∃ f, fuel = f + 1 := ⟨fuel - 1, by omega⟩
    have h0 : g.length = 0 := by omega
    simp [loopExit, h0]
  | succ n ih =>
    intro g res hg hle
    by_cases h0 : g.length = 0
    · refine ⟨.resolved res, ?_⟩
      intro fuel hf
      obtain ⟨f, rfl⟩ : ∃ f, fuel = f + 1 := ⟨fuel - 1, by omega⟩
      simp [loopExit, h0]
    · by_cases h1 : (readyNodes g).length = 0
      · refine ⟨.stuck g, ?_⟩
        intro fuel hf
        obtain ⟨f, rfl⟩ : ∃ f, fuel = f + 1 := ⟨fuel - 1, by omega⟩
        simp [loopExit, h0, h1]
      · have hlt := step_length_lt g hg h1
        have hwf : WFg (removeReadyDeps (deleteReady g (readyNodes g))
            ((readyNodes g).map (fun node => node.module))) := by
          apply WFg.removeReadyDeps
          rw [deleteReady_eq_filter]
          exact WFg.filter g hg _
        obtain ⟨x, hx⟩ := ih _
          (appendReady ((readyNodes g).map (fun node => node.index)) mods 0 res) hwf (by omega)
        refine ⟨x, ?_⟩
        intro fuel hf
        obtain ⟨f, rfl⟩ : ∃ f, fuel = f + 1 := ⟨fuel - 1, by omega⟩
        rw [loopExit]
        simp only [h0, h1, if_false]
        exact hx f (by omega)

theorem mem_keys_set (g : graphs) (key : String) (node : graphNode) (x : String) :
    x ∈ (g.set key node).map Prod.fst ↔ x ∈ g.map Prod.fst ∨ x = key := by
  by_cases h : key ∈ g.map Prod.fst
  · rw [graphs_set_of_mem g key node h]
    constructor
    · exact Or.inl
    · rintro (h1 | rfl)
      · exact h1
      · exact h
  · rw [graphs_set_of_not_mem g key node h]
    simp

theorem mem_keys_buildGraph (mods : List Module) :
    ∀ (index : Nat) (g : graphs) (x : String),
      x ∈ (buildGraph mods index g).map Prod.fst ↔ x ∈ g.map Prod.fst ∨ x ∈ moduleNames mods := by
  induction mods with
  | nil => intro index g x; simp [buildGraph, moduleNames]
  | cons m rest ih =>
    intro index g x
    rw [buildGraph, ih, mem_keys_set]
    simp only [moduleNames, List.map_cons, List.mem_cons]
    tauto

theorem buildGraph_length (mods : List Module) :
    (buildGraph mods 0 []).length = (moduleNames mods).dedup.length := by
  have hwf := WFg.buildGraph mods 0 [] ⟨List.nodup_nil, by simp⟩
  have hp : ((buildGraph mods 0 []).map Prod.fst).Perm (moduleNames mods).dedup := by
    rw [List.perm_ext_iff_of_nodup hwf.1 (List.nodup_dedup _)]
    intro a
    rw [mem_keys_buildGraph, List.mem_dedup]
    simp
  have := hp.length_eq
  rwa [List.length_map] at this

/-- C19: for every module list the resolution loop terminates: `getModulesOrder`
returns a result, and it is the result of the loop for any fuel above the
number of distinct module names, because every iteration that does not return
removes at least one node from the remaining-node map. -/
theorem resolveGraph_terminates (order : graphs → List graphNode) (mods : List Module) :
    ∃ r, getModulesOrder order mods = some r ∧
      ∀ fuel, (moduleNames mods).dedup.length < fuel →
        resolveLoop order mods fuel (buildGraph mods 0 []) [] = some r := by
  have hwf := WFg.buildGraph mods 0 [] ⟨List.nodup_nil, by simp⟩
  obtain ⟨x, hx⟩ := loopExit_total mods _ (buildGraph mods 0 []) [] hwf (le_refl _)
  refine ⟨exitResult order x, ?_, ?_⟩
  · rw [getModulesOrder_eq_exit, hx _ (by omega)]
    rfl
  · intro fuel hf
    rw [resolveLoop_eq_exit, hx fuel (by rw [buildGraph_length]; exact hf)]
    rfl

theorem foldr_max_le (l : List Nat) (b : Nat) :
    l.foldr max 0 ≤ b ↔ ∀ x ∈ l, x ≤ b := by
  induction l with
  | nil => simp
  | cons a l ih => simp [List.foldr_cons, ih]

theorem nodup_pairwise_indexOf (l : List String) (h : l.Nodup) :
    l.Pairwise (fun a b => l.indexOf a < l.indexOf b) := by
  induction l with
  | nil => exact List.Pairwise.nil
  | cons x l ih =>
    obtain ⟨hx, hl⟩ := List.nodup_cons.1 h
    refine List.Pairwise.cons ?_ ?_
    · intro b hb
      have hne : x ≠ b := fun e => hx (e ▸ hb)
      rw [List.indexOf_cons_self, List.indexOf_cons_ne _ hne]
      exact Nat.succ_pos _
    · refine (ih hl).imp_of_mem ?_
      intro a b ha hb hab
      have hxa : x ≠ a := fun e => hx (e ▸ ha)
      have hxb : x ≠ b := fun e => hx (e ▸ hb)
      rw [List.indexOf_cons_ne _ hxa, List.indexOf_cons_ne _ hxb]
      exact Nat.succ_lt_succ hab

theorem exists_enum_of_mem (mods : List Module) (m : Module) (hm : m ∈ mods) :
    ∃ im ∈ mods.enum, im.2 = m := by
  have : m ∈ mods.enum.map Prod.snd := by rw [List.enum_map_snd]; exact hm
  obtain ⟨im, h1, h2⟩ := List.mem_map.1 this
  exact ⟨im, h1, h2⟩

theorem level_le_of_ready (mods : List Module) (level : String → Nat)
    (hlevel : IsLevel mods level) (res : List String) (k : Nat) (hg : Good mods res)
    (hl : Layered mods level res k) (m : Module) (hm : m ∈ mods)
    (hdeps : ∀ B ∈ depsOf m, B ∈ res) : level m.Name ≤ k := by
  rw [hlevel m hm]
  by_cases hreq : m.BuildParams.Requires = []
  · simp [hreq]
  · rw [if_neg hreq]
    obtain ⟨r, hr⟩ := List.exists_mem_of_ne_nil _ hreq
    have hlt : ∀ r ∈ m.BuildParams.Requires, level r.Name < k := by
      intro r hr
      have hres : r.Name ∈ res := hdeps _ ((mem_depsOf m _).2 ⟨r, hr, rfl⟩)
      obtain ⟨m', hm', hname⟩ := List.mem_map.1 (hg.sub _ hres)
      have := (hl.1 m' hm').1 (by rw [hname]; exact hres)
      rwa [hname] at this
    have hk : 0 < k := Nat.lt_of_le_of_lt (Nat.zero_le _) (hlt r hr)
    have hmax : (m.BuildParams.Requires.map (fun r => level r.Name)).foldr max 0 ≤ k - 1 := by
      rw [foldr_max_le]
      intro x hx
      obtain ⟨r', hr', rfl⟩ := List.mem_map.1 hx
      have := hlt r' hr'
      omega
    omega

theorem Layered.next_round (mods : List Module) (hnd : (moduleNames mods).Nodup)
    (level : String → Nat) (hlevel : IsLevel mods level)
    (hdecl : ∀ m ∈ mods, ∀ r ∈ m.BuildParams.Requires, r.Name ∈ moduleNames mods)
    (res : List String) (k : Nat) (hg : Good mods res) (hl : Layered mods level res k) :
    Layered mods level (res ++ readyChunk mods res) (k + 1) := by
  have hchunk : ∀ x ∈ readyChunk mods res, level x = k := by
    intro x hx
    obtain ⟨im, him, hr, rfl⟩ := (mem_readyChunk mods res x).1 hx
    obtain ⟨hnot, hdeps⟩ := (ready_iff res im).1 hr
    have hm := enum_snd_mem mods im him
    have h1 := level_le_of_ready mods level hlevel res k hg hl im.2 hm hdeps
    have h2 : ¬ level im.2.Name < k := fun h => hnot ((hl.1 im.2 hm).2 h)
    omega
  refine ⟨?_, ?_⟩
  · intro m hm
    constructor
    · intro hmem
      rcases List.mem_append.1 hmem with h | h
      · have := (hl.1 m hm).1 h
        omega
      · have := hchunk _ h
        omega
    · intro hlt
      by_cases hk : level m.Name < k
      · exact List.mem_append_left _ ((hl.1 m hm).2 hk)
      · apply List.mem_append_right
        obtain ⟨im, him, rfl⟩ := exists_enum_of_mem mods m hm
        refine (mem_readyChunk mods res _).2 ⟨im, him, ?_, rfl⟩
        rw [ready_iff]
        refine ⟨fun h => hk ((hl.1 im.2 hm).1 h), ?_⟩
        intro B hB
        obtain ⟨r, hr, rfl⟩ := (mem_depsOf im.2 B).1 hB
        have hreq : im.2.BuildParams.Requires ≠ [] := List.ne_nil_of_mem hr
        have heq := hlevel im.2 hm
        rw [if_neg hreq] at heq
        have hle : level r.Name ≤
            (im.2.BuildParams.Requires.map (fun r => level r.Name)).foldr max 0 :=
          (foldr_max_le _ _).1 (le_refl _) _ (List.mem_map.2 ⟨r, hr, rfl⟩)
        obtain ⟨m', hm', hname⟩ := List.mem_map.1 (hdecl im.2 hm r hr)
        have : level m'.Name < k := by rw [hname]; omega
        have := (hl.1 m' hm').2 this
        rwa [hname] at this
  · rw [List.pairwise_append]
    refine ⟨hl.2, ?_, ?_⟩
    · have hp := (nodup_pairwise_indexOf _ hnd).sublist (readyChunk_sublist mods res)
      refine hp.imp_of_mem ?_
      intro a b ha hb hab
      exact Or.inr ⟨by rw [hchunk a ha, hchunk b hb], hab⟩
    · intro a ha b hb
      left
      obtain ⟨m, hm, hname⟩ := List.mem_map.1 (hg.sub a ha)
      have h1 := (hl.1 m hm).1 (by rw [hname]; exact ha)
      rw [hname] at h1
      rw [hchunk b hb]
      exact h1

theorem loopExit_stateOf_invariant (mods : List Module) (hnd : (moduleNames mods).Nodup)
    (P : List String → Prop)
    (hstep : ∀ res, Good mods res → P res → P (res ++ readyChunk mods res)) :
    ∀ (fuel : Nat) (res out : List String), Good mods res → P res →
      loopExit mods fuel (stateOf mods res) res = some (.resolved out) → P out := by
  intro fuel
  induction fuel with
  | zero => intro res out _ _ h; simp [loopExit] at h
  | succ fuel ih =>
    intro res out hg hp h
    rw [loopExit_stateOf_succ] at h
    by_cases h0 : (stateOf mods res).length = 0
    · rw [if_pos h0] at h
      simp only [Option.some.injEq, LoopExit.resolved.injEq] at h
      exact h ▸ hp
    · rw [if_neg h0] at h
      by_cases h1 : (readyChunk mods res).length = 0
      · rw [if_pos h1] at h
        simp at h
      · rw [if_neg h1] at h
        exact ih _ out (Good.step mods hnd res hg) (hstep res hg hp) h

theorem find_by_name (mods : List Module) (hnd : (moduleNames mods).Nodup) (m : Module)
    (hm : m ∈ mods) : mods.find? (fun m' => m'.Name == m.Name) = some m := by
  induction mods with
  | nil => exact absurd hm (List.not_mem_nil _)
  | cons x rest ih =>
    simp only [moduleNames, List.map_cons, List.nodup_cons] at hnd
    rcases List.mem_cons.1 hm with rfl | h
    · simp [List.find?_cons]
    · have hne : ¬ x.Name = m.Name := by
        intro e
        exact hnd.1 (e ▸ List.mem_map.2 ⟨m, h, rfl⟩)
      have hb : (x.Name == m.Name) = false := by simpa using hne
      rw [List.find?_cons, hb]
      exact ih hnd.2 h

theorem levelOf_succ (mods : List Module) (hnd : (moduleNames mods).Nodup) (m : Module)
    (hm : m ∈ mods) (fuel : Nat) :
    levelOf mods (fuel + 1) m.Name =
      if m.BuildParams.Requires = [] then 0
      else 1 + (m.BuildParams.Requires.map (fun r => levelOf mods fuel r.Name)).foldr max 0 := by
  rw [levelOf, find_by_name mods hnd m hm]

theorem levelOf_stable (mods : List Module) (hnd : (moduleNames mods).Nodup)
    (out : List String) (hg : Good mods out) (hall : ∀ m ∈ mods, m.Name ∈ out) :
    ∀ (n : Nat) (m : Module), m ∈ mods → out.indexOf m.Name ≤ n →
      ∀ fuel, n < fuel → levelOf mods fuel m.Name = levelOf mods (fuel + 1) m.Name := by
  intro n
  induction n using Nat.strong_induction_on with
  | _ n ih =>
    intro m hm hidx fuel hf
    obtain ⟨f, rfl⟩ : ∃ f, fuel = f + 1 := ⟨fuel - 1, by omega⟩
    rw [levelOf_succ mods hnd m hm, levelOf_succ mods hnd m hm]
    by_cases hreq : m.BuildParams.Requires = []
    · simp [hreq]
    · rw [if_neg hreq, if_neg hreq]
      congr 2
      apply List.map_congr_left
      intro r hr
      obtain ⟨hrout, hlt⟩ := hg.topo m hm (hall m hm) r.Name ((mem_depsOf m _).2 ⟨r, hr, rfl⟩)
      obtain ⟨m', hm', hname⟩ := List.mem_map.1 (hg.sub _ hrout)
      have := ih (out.indexOf m'.Name) (by rw [hname]; omega) m' hm' (le_refl _) f
        (by rw [hname]; omega)
      rwa [hname] at this

theorem levelOf_isLevel (mods : List Module) (hnd : (moduleNames mods).Nodup)
    (out : List String) (hg : Good mods out) (hall : ∀ m ∈ mods, m.Name ∈ out) :
    IsLevel mods (levelOf mods mods.length) := by
  intro m hm
  have hlen : out.length = mods.length := by
    have := (Good.perm mods hnd out hg hall).length_eq
    simpa [moduleNames] using this
  have hpos : 0 < mods.length := List.length_pos_of_mem hm
  obtain ⟨f, hf⟩ : ∃ f, mods.length = f + 1 := ⟨mods.length - 1, by omega⟩
  rw [hf, levelOf_succ mods hnd m hm]
  by_cases hreq : m.BuildParams.Requires = []
  · simp [hreq]
  · rw [if_neg hreq, if_neg hreq]
    congr 2
    apply List.map_congr_left
    intro r hr
    obtain ⟨hrout, hlt⟩ := hg.topo m hm (hall m hm) r.Name ((mem_depsOf m _).2 ⟨r, hr, rfl⟩)
    obtain ⟨m', hm', hname⟩ := List.mem_map.1 (hg.sub _ hrout)
    have hm_lt : out.indexOf m.Name < out.length := List.indexOf_lt_length.2 (hall m hm)
    have := levelOf_stable mods hnd out hg hall (out.indexOf m'.Name) m' hm' (le_refl _) f
      (by rw [hname]; omega)
    rwa [hname] at this

/-- C17: when the module names are pairwise distinct and `getModulesOrder`
succeeds, the returned order is the list of module names sorted by level and
then by declaration index, for the level function of the level equation
(0 without requirements, else one more than the greatest level of the required
names), which `levelOf` computes: the modules of one round are appended by
declaration index. -/
theorem getModulesOrder_layered (order : graphs → List graphNode) (mods : List Module)
    (out : List String) (level : String → Nat) (hnd : (moduleNames mods).Nodup)
    (hlevel : IsLevel mods level) (h : getModulesOrder order mods = some (.ok out)) :
    out.Perm (moduleNames mods) ∧ out.Pairwise (layerLt mods level) ∧
      out = (moduleNames mods).insertionSort (layerLe mods level) ∧
      IsLevel mods (levelOf mods mods.length) := by
  obtain ⟨hg, hall⟩ := ok_spec order mods hnd out h
  have hperm := Good.perm mods hnd out hg hall
  have hdecl : ∀ m ∈ mods, ∀ r ∈ m.BuildParams.Requires, r.Name ∈ moduleNames mods := by
    intro m hm r hr
    exact hg.sub _ (hg.topo m hm (hall m hm) r.Name ((mem_depsOf m _).2 ⟨r, hr, rfl⟩)).1
  have hexit : loopExit mods (mods.length + 1) (stateOf mods []) [] = some (.resolved out) := by
    have h' := h
    rw [getModulesOrder_eq_exit, buildGraph_eq_stateOf mods hnd, stateOf_nil_length] at h'
    cases hx : loopExit mods (mods.length + 1) (stateOf mods []) [] with
    | none => rw [hx] at h'; simp at h'
    | some x =>
      rw [hx] at h'
      cases x with
      | resolved o =>
        simp only [Option.map_some', exitResult, Option.some.injEq, Except.ok.injEq] at h'
        rw [h']
      | stuck g => simp [exitResult] at h'
  have hinv : ∃ k, Layered mods level out k := by
    refine loopExit_stateOf_invariant mods hnd (fun res => ∃ k, Layered mods level res k) ?_
      _ [] out (Good.nil mods) ⟨0, ?_, List.Pairwise.nil⟩ hexit
    · rintro res hgr ⟨k, hk⟩
      exact ⟨k + 1, Layered.next_round mods hnd level hlevel hdecl res k hgr hk⟩
    · intro m _
      simp
  obtain ⟨k, hk⟩ := hinv
  refine ⟨hperm, hk.2, ?_, levelOf_isLevel mods hnd out hg hall⟩
  haveI : IsTotal String (layerLe mods level) :=
    ⟨fun a b => by unfold layerLe; omega⟩
  haveI : IsTrans String (layerLe mods level) :=
    ⟨fun a b c => by unfold layerLe; omega⟩
  have hsorted := List.sorted_insertionSort (layerLe mods level) (moduleNames mods)
  have hle : out.Pairwise (layerLe mods level) := by
    refine hk.2.imp ?_
    intro a b hab
    unfold layerLt at hab
    unfold layerLe
    omega
  refine List.Perm.eq_of_sorted ?_ hle hsorted
    (hperm.trans (List.perm_insertionSort _ _).symm)
  intro a b ha hb hab hba
  have ha' : a ∈ moduleNames mods := hperm.mem_iff.1 ha
  have hb' : b ∈ moduleNames mods := (List.perm_insertionSort _ _).mem_iff.1 hb
  unfold layerLe at hab hba
  have : (moduleNames mods).indexOf a = (moduleNames mods).indexOf b := by omega
  exact (List.indexOf_inj ha' hb').1 this

theorem getModulesOrder_layered_witness :
    getModulesOrder storedOrder [⟨"C", ⟨[⟨"B"⟩]⟩⟩, ⟨"D", ⟨[]⟩⟩, ⟨"B", ⟨[⟨"A"⟩]⟩⟩, ⟨"A", ⟨[]⟩⟩]
        = some (.ok ["D", "A", "B", "C"]) ∧
      ["D", "A", "B", "C"] =
        (moduleNames [⟨"C", ⟨[⟨"B"⟩]⟩⟩, ⟨"D", ⟨[]⟩⟩, ⟨"B", ⟨[⟨"A"⟩]⟩⟩, ⟨"A", ⟨[]⟩⟩]).insertionSort
          (layerLe [⟨"C", ⟨[⟨"B"⟩]⟩⟩, ⟨"D", ⟨[]⟩⟩, ⟨"B", ⟨[⟨"A"⟩]⟩⟩, ⟨"A", ⟨[]⟩⟩]
            (levelOf [⟨"C", ⟨[⟨"B"⟩]⟩⟩, ⟨"D", ⟨[]⟩⟩, ⟨"B", ⟨[⟨"A"⟩]⟩⟩, ⟨"A", ⟨[]⟩⟩] 4)) :=
  ⟨by decide,
   (getModulesOrder_layered storedOrder
      [⟨"C", ⟨[⟨"B"⟩]⟩⟩, ⟨"D", ⟨[]⟩⟩, ⟨"B", ⟨[⟨"A"⟩]⟩⟩, ⟨"A", ⟨[]⟩⟩] ["D", "A", "B", "C"]
      (levelOf [⟨"C", ⟨[⟨"B"⟩]⟩⟩, ⟨"D", ⟨[]⟩⟩, ⟨"B", ⟨[⟨"A"⟩]⟩⟩, ⟨"A", ⟨[]⟩⟩] 4)
      (by decide) (by unfold IsLevel; decide) (by decide)).2.2.1⟩

theorem graphs_set_eq_map (g : graphs) (k : String) (v : graphNode)
    (hnd : (g.map Prod.fst).Nodup) (hk : k ∈ g.map Prod.fst) :
    g.set k v = g.map (fun e => if e.1 = k then (e.1, v) else e) := by
  induction g with
  | nil => simp at hk
  | cons a g ih =>
    obtain ⟨k0, n0⟩ := a
    simp only [List.map_cons, List.nodup_cons] at hnd
    by_cases h0 : k0 = k
    · subst h0
      have hrest : g.map (fun e => if e.1 = k0 then (e.1, v) else e) = g := by
        conv_rhs => rw [← List.map_id g]
        apply List.map_congr_left
        intro e he
        have : ¬ e.1 = k0 := fun e0 => hnd.1 (e0 ▸ List.mem_map.2 ⟨e, he, rfl⟩)
        simp [this]
      simp [graphs.set, hrest]
    · have hk' : k ∈ g.map Prod.fst := by
        simp only [List.map_cons, List.mem_cons] at hk
        rcases hk with h | h
        · exact absurd h.symm h0
        · exact h
      simp [graphs.set, h0, ih hnd.2 hk']

theorem eq_of_key (g : graphs) (hnd : (g.map Prod.fst).Nodup) (a b : String × graphNode)
    (ha : a ∈ g) (hb : b ∈ g) (h : a.1 = b.1) : a = b :=
  List.inj_on_of_nodup_map hnd ha hb h

theorem foldl_set_eq_map (f : graphNode → graphNode) (visited : graphs) :
    ∀ acc : graphs, (acc.map Prod.fst).Nodup → (visited.map Prod.fst).Nodup →
      (∀ kn ∈ visited, kn ∈ acc) →
      visited.foldl (fun g kn => g.set kn.1 (f kn.2)) acc =
        acc.map (fun e => if e.1 ∈ visited.map Prod.fst then (e.1, f e.2) else e) := by
  induction visited with
  | nil =>
    intro acc _ _ _
    simp
  | cons kn rest ih =>
    intro acc hacc hvis hmem
    simp only [List.map_cons, List.nodup_cons] at hvis
    have hkn : kn ∈ acc := hmem kn (List.mem_cons_self _ _)
    have hset : acc.set kn.1 (f kn.2) =
        acc.map (fun e => if e.1 = kn.1 then (e.1, f e.2) else e) := by
      rw [graphs_set_eq_map acc kn.1 (f kn.2) hacc (List.mem_map.2 ⟨kn, hkn, rfl⟩)]
      apply List.map_congr_left
      intro e he
      by_cases h : e.1 = kn.1
      · have : e = kn := eq_of_key acc hacc e kn he hkn h
        simp [this]
      · simp [h]
    rw [List.foldl_cons, hset]
    have hkeys : (acc.map (fun e => if e.1 = kn.1 then (e.1, f e.2) else e)).map Prod.fst =
        acc.map Prod.fst := by
      rw [List.map_map]
      apply List.map_congr_left
      intro e _
      by_cases h : e.1 = kn.1 <;> simp [h]
    rw [ih _ (by rw [hkeys]; exact hacc) hvis.2 ?_, List.map_map]
    · apply List.map_congr_left
      intro e _
      by_cases h : e.1 = kn.1
      · have hn : ¬ kn.1 ∈ rest.map Prod.fst := hvis.1
        simp only [Function.comp_apply, h, if_true, hn, if_false, List.map_cons, List.mem_cons,
          true_or]
      · simp only [Function.comp_apply, h, if_false, List.map_cons, List.mem_cons, false_or]
    · intro kn' hkn'
      have hin : kn' ∈ acc := hmem kn' (List.mem_cons_of_mem _ hkn')
      have hne : ¬ kn'.1 = kn.1 := by
        intro e0
        exact hvis.1 (e0 ▸ List.mem_map.2 ⟨kn', hkn', rfl⟩)
      exact List.mem_map.2 ⟨kn', hin, by simp [hne]⟩

theorem updateDeps_eq_map (members : List String → List String) (names : List String)
    (visited g : graphs) (hg : WFg g) (hp : visited.Perm g) :
    updateDeps members names visited g =
      g.map (fun e => (e.1, dropReady members names e.2)) := by
  unfold updateDeps
  have hvis : (visited.map Prod.fst).Nodup := ((hp.map Prod.fst).nodup_iff).2 hg.1
  rw [foldl_set_eq_map (dropReady members names) visited g hg.1 hvis
      (fun kn hkn => hp.mem_iff.1 hkn)]
  apply List.map_congr_left
  intro e he
  have : e.1 ∈ visited.map Prod.fst := List.mem_map.2 ⟨e, hp.mem_iff.2 he, rfl⟩
  simp [this]

theorem readyNodes_cons (a : String × graphNode) (g : graphs) :
    readyNodes (a :: g) =
      if a.2.deps.length = 0 then a.2 :: readyNodes g else readyNodes g := by
  unfold readyNodes
  by_cases h : a.2.deps.length = 0
  · simp [List.filter_cons, h]
  · simp [List.filter_cons, h]

theorem Sim.readyNodes (g g' : graphs) (h : Sim g g') :
    (readyNodes g).map (fun node => node.module) =
        (readyNodes g').map (fun node => node.module) ∧
      (readyNodes g).map (fun node => node.index) =
        (readyNodes g').map (fun node => node.index) := by
  unfold Sim at h
  induction h with
  | nil => exact ⟨rfl, rfl⟩
  | cons hab _ ih =>
    obtain ⟨_, hm, hi, hd⟩ := hab
    rw [readyNodes_cons, readyNodes_cons, ← hd.length_eq]
    split
    · simp only [List.map_cons, hm, hi, ih.1, ih.2, and_self]
    · exact ih

theorem Sim.filter_keys (g g' : graphs) (h : Sim g g') (p : String → Bool) :
    Sim (g.filter (fun kn => p kn.1)) (g'.filter (fun kn => p kn.1)) := by
  unfold Sim at h ⊢
  induction h with
  | nil => exact List.Forall₂.nil
  | cons hab _ ih =>
    rw [List.filter_cons, List.filter_cons, ← hab.1]
    split
    · exact List.Forall₂.cons hab ih
    · exact ih

theorem Sim.update (g g' : graphs) (h : Sim g g') (members : List String → List String)
    (hmem : ∀ s, (members s).Perm s) (names names' : List String)
    (hn : ∀ x, x ∈ names ↔ x ∈ names') :
    Sim (g.map (fun e => (e.1, dropReady members names e.2))) (removeReadyDeps g' names') := by
  unfold Sim at h ⊢
  unfold removeReadyDeps
  induction h with
  | nil => exact List.Forall₂.nil
  | cons hab _ ih =>
    refine List.Forall₂.cons ⟨hab.1, hab.2.1, hab.2.2.1, ?_⟩ ih
    simp only [dropReady]
    have hf : ∀ d, decide (d ∉ names) = decide (d ∉ names') := by
      intro d
      simp [hn d]
    have : (fun d => decide (d ∉ names)) = (fun d => decide (d ∉ names')) := funext hf
    rw [this]
    exact ((hmem _).trans hab.2.2.2).filter _

theorem Sim.refl (g : graphs) : Sim g g := by
  unfold Sim
  induction g with
  | nil => exact List.Forall₂.nil
  | cons a g ih => exact List.Forall₂.cons ⟨rfl, rfl, rfl, List.Perm.refl _⟩ ih

theorem Sim.modules (g g' : graphs) (h : Sim g g') :
    g.map (fun kn => kn.2.module) = g'.map (fun kn => kn.2.module) := by
  unfold Sim at h
  induction h with
  | nil => rfl
  | cons hab _ ih => simp only [List.map_cons, hab.2.1, ih]

theorem Sim.length_eq (g g' : graphs) (h : Sim g g') : g.length = g'.length :=
  List.Forall₂.length_eq h

theorem WFg.map_node (g : graphs) (hg : WFg g) (f : graphNode → graphNode)
    (hf : ∀ n, (f n).module = n.module) : WFg (g.map (fun e => (e.1, f e.2))) := by
  refine ⟨?_, ?_⟩
  · rw [List.map_map]
    exact hg.1
  · intro kn hkn
    obtain ⟨a, ha, rfl⟩ := List.mem_map.1 hkn
    simp only [hf]
    exact hg.2 a ha

theorem appendReady_congr (idx idx' : List Nat) (h : ∀ i, i ∈ idx ↔ i ∈ idx')
    (mods : List Module) (index : Nat) (resolved : List String) :
    appendReady idx mods index resolved = appendReady idx' mods index resolved := by
  rw [appendReady_eq, appendReady_eq]
  congr 2
  apply List.filter_congr
  intro im _
  simp [h im.1]

theorem filter_keys_congr (g : graphs) (names names' : List String)
    (h : ∀ x, x ∈ names ↔ x ∈ names') :
    g.filter (fun kn => decide (kn.1 ∉ names)) = g.filter (fun kn => decide (kn.1 ∉ names')) := by
  apply List.filter_congr
  intro kn _
  simp [h kn.1]

theorem readyNodes_perm (g1 g2 : graphs) (h : g1.Perm g2) :
    (readyNodes g1).Perm (readyNodes g2) := by
  unfold readyNodes
  exact (h.map Prod.snd).filter _

theorem resolveLoopIn_sim (r : Ranges) (hr : r.Admissible) (mods : List Module) :
    ∀ (fuel : Nat) (g g' : graphs) (res : List String), WFg g → Sim g g' →
      (loopExit mods fuel g' res = none → resolveLoopIn r mods fuel g res = none) ∧
      (∀ out, loopExit mods fuel g' res = some (.resolved out) →
        resolveLoopIn r mods fuel g res = some (.ok out)) ∧
      (∀ s', loopExit mods fuel g' res = some (.stuck s') →
        ∃ s, Sim s s' ∧ resolveLoopIn r mods fuel g res =
          some (.error (circularError (provideCyclicModules (r.cyclic s)).1
            (provideCyclicModules (r.cyclic s)).2))) := by
  obtain ⟨hready, hiter, hupdate, _, hmembers⟩ := hr
  intro fuel
  induction fuel with
  | zero =>
    intro g g' res _ _
    refine ⟨fun _ => rfl, ?_, ?_⟩
    · intro out h
      simp [loopExit] at h
    · intro s' h
      simp [loopExit] at h
  | succ fuel ih =>
    intro g g' res hg hsim
    have hlen := Sim.length_eq g g' hsim
    have hA := readyNodes_perm _ _ (hready g)
    obtain ⟨hmod, hidx⟩ := Sim.readyNodes g g' hsim
    have hAlen : (readyNodes (r.ready g)).length = (readyNodes g').length := by
      rw [hA.length_eq]
      have := congrArg List.length hmod
      simpa using this
    rw [resolveLoopIn, loopExit]
    by_cases h0 : g'.length = 0
    · have h0' : g.length = 0 := by rw [hlen]; exact h0
      simp [h0, h0']
    · have h0' : ¬ g.length = 0 := by rw [hlen]; exact h0
      rw [if_neg h0, if_neg h0']
      by_cases h1 : (readyNodes g').length = 0
      · have h1' : (readyNodes (r.ready g)).length = 0 := by rw [hAlen]; exact h1
        simp only [h1, h1', if_true]
        refine ⟨fun h => by simp at h, fun out h => by simp at h, ?_⟩
        intro s' h
        simp only [Option.some.injEq, LoopExit.stuck.injEq] at h
        subst h
        exact ⟨g, hsim, rfl⟩
      · have h1' : ¬ (readyNodes (r.ready g)).length = 0 := by rw [hAlen]; exact h1
        simp only [h1, h1', if_false]
        have hV := hiter (readyNodes (r.ready g))
        have hnames : ∀ x, x ∈ (readyNodes (r.ready g)).map (fun node => node.module) ↔
            x ∈ (readyNodes g').map (fun node => node.module) := by
          intro x
          rw [← hmod]
          exact (hA.map _).mem_iff
        have hVnames : ∀ x, x ∈ (r.iter (readyNodes (r.ready g))).map (fun node => node.module) ↔
            x ∈ (readyNodes g').map (fun node => node.module) := by
          intro x
          rw [← hmod]
          exact ((hV.trans hA).map _).mem_iff
        have hVidx : ∀ i, i ∈ (r.iter (readyNodes (r.ready g))).map (fun node => node.index) ↔
            i ∈ (readyNodes g').map (fun node => node.index) := by
          intro i
          rw [← hidx]
          exact ((hV.trans hA).map _).mem_iff
        have hdel : deleteReady g (r.iter (readyNodes (r.ready g))) =
            g.filter (fun kn => decide (kn.1 ∉ (readyNodes g').map (fun node => node.module))) := by
          rw [deleteReady_eq_filter]
          exact filter_keys_congr g _ _ hVnames
        have hwf1 : WFg (deleteReady g (r.iter (readyNodes (r.ready g)))) := by
          rw [hdel]
          exact WFg.filter g hg _
        have hsim1 : Sim (deleteReady g (r.iter (readyNodes (r.ready g))))
            (deleteReady g' (readyNodes g')) := by
          rw [hdel, deleteReady_eq_filter]
          exact Sim.filter_keys g g' hsim
            (fun k => decide (k ∉ (readyNodes g').map (fun node => node.module)))
        rw [updateDeps_eq_map r.members _ _ _ hwf1 (hupdate _),
          appendReady_congr _ _ hVidx]
        exact ih _ _ _
          (WFg.map_node _ hwf1 _ (fun _ => rfl))
          (Sim.update _ _ hsim1 r.members hmembers _ _ hnames)

theorem getModulesOrderIn_exit (r : Ranges) (hr : r.Admissible) (mods : List Module) :
    (∀ out, loopExit mods ((buildGraph mods 0 []).length + 1) (buildGraph mods 0 []) [] =
        some (.resolved out) → getModulesOrderIn r mods = some (.ok out)) ∧
    (∀ s', loopExit mods ((buildGraph mods 0 []).length + 1) (buildGraph mods 0 []) [] =
        some (.stuck s') →
      ∃ s, Sim s s' ∧ getModulesOrderIn r mods =
        some (.error (circularError (provideCyclicModules (r.cyclic s)).1
          (provideCyclicModules (r.cyclic s)).2))) :=
  (resolveLoopIn_sim r hr mods _ _ _ []
    (WFg.buildGraph mods 0 [] ⟨List.nodup_nil, by simp⟩) (Sim.refl _)).2

theorem storedRanges_admissible : storedRanges.Admissible :=
  ⟨fun _ => List.Perm.refl _, fun _ => List.Perm.refl _, fun _ => List.Perm.refl _,
    fun _ => List.Perm.refl _, fun _ => List.Perm.refl _⟩

theorem reversedRanges_admissible : reversedRanges.Admissible :=
  ⟨fun _ => List.reverse_perm _, fun _ => List.reverse_perm _, fun _ => List.reverse_perm _,
    fun _ => List.reverse_perm _, fun _ => List.reverse_perm _⟩

theorem cyclic_names_perm (r : Ranges) (hr : r.Admissible) (s s' : graphs) (h : Sim s s') :
    ((r.cyclic s).map (fun node => node.module)).Perm (s'.map (fun kn => kn.2.module)) := by
  have := (hr.2.2.2.1 s).map (fun node : graphNode => node.module)
  rw [List.map_map] at this
  rw [← Sim.modules s s' h]
  exact this

/-- C15, as stated, fails: for the cycle of `X` and `Y` two runs that range over
the remaining-node map in opposite orders return two different errors. -/
theorem error_depends_on_iteration_order :
    storedRanges.Admissible ∧ reversedRanges.Admissible ∧
      getModulesOrderIn storedRanges [⟨"X", ⟨[⟨"Y"⟩]⟩⟩, ⟨"Y", ⟨[⟨"X"⟩]⟩⟩] =
        some (.error "Circular dependency found. Check modules X and Y") ∧
      getModulesOrderIn reversedRanges [⟨"X", ⟨[⟨"Y"⟩]⟩⟩, ⟨"Y", ⟨[⟨"X"⟩]⟩⟩] =
        some (.error "Circular dependency found. Check modules Y and X") :=
  ⟨storedRanges_admissible, reversedRanges_admissible, by decide, by decide⟩

/-- C15, amended: take any two runs, each ranging over the graph map, over the
set of ready nodes and over every dependency set in an order of its own.  If
one succeeds, the other succeeds with the same order, the order of
`getModulesOrder`; if one fails, the other fails too, both with the
circular-dependency error for the same remaining nodes, each naming the first
two of them in its own iteration order. -/
theorem getModulesOrderIn_deterministic (r1 r2 : Ranges) (h1 : r1.Admissible)
    (h2 : r2.Admissible) (mods : List Module) :
    (∀ out, getModulesOrderIn r1 mods = some (.ok out) →
      getModulesOrderIn r2 mods = some (.ok out) ∧
        ∀ order, getModulesOrder order mods = some (.ok out)) ∧
    (∀ e, getModulesOrderIn r1 mods = some (.error e) →
      ∃ overleft it1 it2, remainingAtFailure mods = some overleft ∧
        (it1.map (fun node => node.module)).Perm (overleft.map (fun kn => kn.2.module)) ∧
        (it2.map (fun node => node.module)).Perm (overleft.map (fun kn => kn.2.module)) ∧
        e = circularError (provideCyclicModules it1).1 (provideCyclicModules it1).2 ∧
        getModulesOrderIn r2 mods =
          some (.error (circularError (provideCyclicModules it2).1
            (provideCyclicModules it2).2))) := by
  have hwf := WFg.buildGraph mods 0 [] ⟨List.nodup_nil, by simp⟩
  obtain ⟨x, hx⟩ := loopExit_total mods _ (buildGraph mods 0 []) [] hwf (le_refl _)
  have hx' := hx ((buildGraph mods 0 []).length + 1) (by omega)
  obtain ⟨hok1, herr1⟩ := getModulesOrderIn_exit r1 h1 mods
  obtain ⟨hok2, herr2⟩ := getModulesOrderIn_exit r2 h2 mods
  cases x with
  | resolved out0 =>
    have e1 := hok1 out0 hx'
    have e2 := hok2 out0 hx'
    constructor
    · intro out h
      rw [e1] at h
      simp only [Option.some.injEq, Except.ok.injEq] at h
      subst h
      refine ⟨e2, ?_⟩
      intro order
      rw [getModulesOrder_eq_exit, hx']
      rfl
    · intro e h
      rw [e1] at h
      simp at h
  | stuck s' =>
    obtain ⟨s1, hs1, e1⟩ := herr1 s' hx'
    obtain ⟨s2, hs2, e2⟩ := herr2 s' hx'
    constructor
    · intro out h
      rw [e1] at h
      simp at h
    · intro e h
      rw [e1] at h
      simp only [Option.some.injEq, Except.error.injEq] at h
      refine ⟨s', r1.cyclic s1, r2.cyclic s2, ?_, cyclic_names_perm r1 h1 s1 s' hs1,
        cyclic_names_perm r2 h2 s2 s' hs2, h.symm, e2⟩
      unfold remainingAtFailure
      rw [hx']

theorem getModulesOrderIn_deterministic_witness :
    getModulesOrderIn reversedRanges
        [⟨"C", ⟨[⟨"B"⟩]⟩⟩, ⟨"D", ⟨[]⟩⟩, ⟨"B", ⟨[⟨"A"⟩, ⟨"D"⟩]⟩⟩, ⟨"A", ⟨[]⟩⟩] =
      some (.ok ["D", "A", "B", "C"]) ∧
    ∃ overleft it1 it2,
      remainingAtFailure [⟨"X", ⟨[⟨"Y"⟩]⟩⟩, ⟨"Y", ⟨[⟨"X"⟩]⟩⟩, ⟨"Z", ⟨[]⟩⟩] = some overleft ∧
      (it1.map (fun node => node.module)).Perm (overleft.map (fun kn => kn.2.module)) ∧
      (it2.map (fun node => node.module)).Perm (overleft.map (fun kn => kn.2.module)) ∧
      "Circular dependency found. Check modules Y and X" =
        circularError (provideCyclicModules it1).1 (provideCyclicModules it1).2 ∧
      getModulesOrderIn storedRanges [⟨"X", ⟨[⟨"Y"⟩]⟩⟩, ⟨"Y", ⟨[⟨"X"⟩]⟩⟩, ⟨"Z", ⟨[]⟩⟩] =
        some (.error (circularError (provideCyclicModules it2).1
          (provideCyclicModules it2).2)) :=
  ⟨((getModulesOrderIn_deterministic storedRanges reversedRanges storedRanges_admissible
      reversedRanges_admissible
      [⟨"C", ⟨[⟨"B"⟩]⟩⟩, ⟨"D", ⟨[]⟩⟩, ⟨"B", ⟨[⟨"A"⟩, ⟨"D"⟩]⟩⟩, ⟨"A", ⟨[]⟩⟩]).1
      ["D", "A", "B", "C"] (by decide)).1,
   (getModulesOrderIn_deterministic reversedRanges storedRanges reversedRanges_admissible
      storedRanges_admissible
      [⟨"X", ⟨[⟨"Y"⟩]⟩⟩, ⟨"Y", ⟨[⟨"X"⟩]⟩⟩, ⟨"Z", ⟨[]⟩⟩]).2
      "Circular dependency found. Check modules Y and X" (by decide)⟩

end Mta

/-! ## The manifest entries -/

namespace Artifacts

theorem moduleDefined_eq_included (modules : List String) (m : Module) :
    moduleDefined m.Name modules = included modules m := by
  unfold moduleDefined included
  cases modules with
  | nil => simp
  | cons a l =>
    simp only [List.length_cons, Nat.succ_ne_zero, if_false, reduceCtorEq, false_or]
    rw [Bool.eq_iff_iff]
    simp only [List.any_eq_true, decide_eq_true_eq]
    constructor
    · rintro ⟨x, hx, rfl⟩
      exact hx
    · intro h
      exact ⟨_, h, rfl⟩

theorem getContentType_ok (env : Env) (g : Option Loc) (path ct : String)
    (h : getContentType env g path = .ok ct) : ct = contentTypeOf env g path := by
  simp [contentTypeOf, h]

theorem getContentType_of_classifies (env : Env) (g : Option Loc) (path : String)
    (h : classifies env g path = true) :
    getContentType env g path = .ok (contentTypeOf env g path) := by
  unfold classifies at h
  unfold contentTypeOf
  cases hc : getContentType env g path with
  | ok ct => rfl
  | error e => rw [hc] at h; simp at h

theorem assertString_some (params : Parameters) (s : String)
    (h : (params.get "path").assertString = some s) : s = declaredPath params := by
  unfold declaredPath
  cases hv : params.get "path" with
  | str t => rw [hv] at h; simpa [Value.assertString] using h.symm
  | null => rw [hv] at h; simp [Value.assertString] at h
  | int n => rw [hv] at h; simp [Value.assertString] at h
  | bool b => rw [hv] at h; simp [Value.assertString] at h

theorem assertString_of_textual (params : Parameters) (h : textualPath params = true) :
    (params.get "path").assertString = some (declaredPath params) := by
  unfold textualPath at h
  unfold declaredPath
  cases hv : params.get "path" with
  | str t => rfl
  | null => rw [hv] at h; simp at h
  | int n => rw [hv] at h; simp at h
  | bool b => rw [hv] at h; simp at h

theorem buildEntriesLoop_ok (env : Env) (g : Option Loc) (m : Module) (reqs : List Requires) :
    ∀ (acc out : List entry), buildEntriesLoop env g m reqs acc = .ok out →
      out = acc ++ reqs.map (requiredEntryOf env g m) := by
  induction reqs with
  | nil =>
    intro acc out h
    simp only [buildEntriesLoop, Outcome.ok.injEq] at h
    simp [h]
  | cons r rest ih =>
    intro acc out h
    rw [buildEntriesLoop] at h
    cases hp : (r.Parameters.get "path").assertString with
    | none => rw [hp] at h; simp at h
    | some path =>
      rw [hp] at h
      simp only at h
      cases hc : getContentType env g path with
      | error e => rw [hc] at h; simp at h
      | ok ct =>
        rw [hc] at h
        simp only at h
        have := ih _ _ h
        rw [this, getContentType_ok env g path ct hc, assertString_some _ _ hp]
        simp [requiredEntryOf]

theorem buildEntriesLoop_succeeds (env : Env) (g : Option Loc) (m : Module)
    (reqs : List Requires)
    (hreq : ∀ r ∈ reqs, textualPath r.Parameters = true ∧
      classifies env g (declaredPath r.Parameters) = true) :
    ∀ acc : List entry, ∃ out, buildEntriesLoop env g m reqs acc = .ok out := by
  induction reqs with
  | nil => intro acc; exact ⟨acc, rfl⟩
  | cons r rest ih =>
    intro acc
    obtain ⟨ht, hc⟩ := hreq r (List.mem_cons_self _ _)
    rw [buildEntriesLoop, assertString_of_textual _ ht]
    simp only
    rw [getContentType_of_classifies env g _ hc]
    exact ih (fun r' hr' => hreq r' (List.mem_cons_of_mem _ hr')) _

theorem modulesLoop_ok (env : Env) (g : Option Loc) (modules : List String) (only : Bool)
    (mods : List Module) :
    ∀ (acc out : List entry), modulesLoop env g modules only mods acc = .ok out →
      out = acc ++ ((mods.filter (included modules)).map (entriesOfModule env g only)).flatten := by
  induction mods with
  | nil =>
    intro acc out h
    simp only [modulesLoop, Outcome.ok.injEq] at h
    simp [h]
  | cons m rest ih =>
    intro acc out h
    rw [modulesLoop, moduleDefined_eq_included] at h
    by_cases hin : included modules m = true
    · rw [if_pos hin] at h
      rw [List.filter_cons_of_pos hin, List.map_cons, List.flatten_cons]
      cases hc : getContentType env g (getModulePath env m g) with
      | error e => rw [hc] at h; simp at h
      | ok ct =>
        rw [hc] at h
        simp only at h
        rw [getContentType_ok env g _ ct hc] at h
        cases only with
        | true =>
          simp only [if_true] at h
          rw [ih _ _ h]
          simp [entriesOfModule, moduleEntryOf]
        | false =>
          simp only [Bool.false_eq_true, if_false] at h
          cases hb : buildEntries env g m (getRequiredDependencies m) with
          | panic => rw [hb] at h; simp at h
          | error e => rw [hb] at h; simp at h
          | ok es =>
            rw [hb] at h
            simp only at h
            have hes := buildEntriesLoop_ok env g m _ _ _ hb
            rw [ih _ _ h, hes]
            simp [entriesOfModule, moduleEntryOf, getRequiredDependencies, declaresPath]
    · rw [if_neg hin] at h
      rw [List.filter_cons_of_neg hin]
      exact ih _ _ h

theorem modulesLoop_succeeds (env : Env) (g : Option Loc) (modules : List String) (only : Bool)
    (mods : List Module)
    (hmod : ∀ m ∈ mods, included modules m = true →
      classifies env g (getModulePath env m g) = true)
    (hreq : only = false → ∀ m ∈ mods, included modules m = true → ∀ r ∈ m.Requires,
      declaresPath r.Parameters = true →
        textualPath r.Parameters = true ∧ classifies env g (declaredPath r.Parameters) = true) :
    ∀ acc : List entry, ∃ out, modulesLoop env g modules only mods acc = .ok out := by
  induction mods with
  | nil => intro acc; exact ⟨acc, rfl⟩
  | cons m rest ih =>
    intro acc
    have ih' := ih (fun x hx => hmod x (List.mem_cons_of_mem _ hx))
      (fun ho x hx => hreq ho x (List.mem_cons_of_mem _ hx))
    rw [modulesLoop, moduleDefined_eq_included]
    by_cases hin : included modules m = true
    · rw [if_pos hin, getContentType_of_classifies env g _ (hmod m (List.mem_cons_self _ _) hin)]
      simp only
      cases only with
      | true => simp only [if_true]; exact ih' _
      | false =>
        simp only [Bool.false_eq_true, if_false]
        obtain ⟨es, hes⟩ := buildEntriesLoop_succeeds env g m (getRequiredDependencies m)
          (fun r hr => by
            obtain ⟨h1, h2⟩ := List.mem_filter.1 hr
            exact hreq rfl m (List.mem_cons_self _ _) hin r h1 h2) []
        have hb : buildEntries env g m (getRequiredDependencies m) = .ok es := hes
        rw [hb]
        exact ih' _
    · rw [if_neg hin]
      exact ih' _

theorem resourcesLoop_ok (env : Env) (g : Option Loc) (resources : List Resource) :
    ∀ (acc out : List entry), resourcesLoop env g resources acc = .ok out →
      out = acc ++ (resources.filter (fun r => declaresPath r.Parameters)).map
        (resourceEntryOf env g) := by
  induction resources with
  | nil =>
    intro acc out h
    simp only [resourcesLoop, Outcome.ok.injEq] at h
    simp [h]
  | cons r rest ih =>
    intro acc out h
    rw [resourcesLoop] at h
    by_cases hn : r.Parameters.get "path" = .null
    · rw [if_pos hn] at h
      have hd : declaresPath r.Parameters = false := by simp [declaresPath, hn]
      simp only [List.filter_cons, hd, Bool.false_eq_true, if_false]
      exact ih _ _ h
    · rw [if_neg hn] at h
      have hd : declaresPath r.Parameters = true := by simp [declaresPath, hn]
      simp only [List.filter_cons, hd, if_true]
      cases hp : getResourcePath r with
      | none => rw [hp] at h; simp at h
      | some path =>
        rw [hp] at h
        simp only at h
        cases hc : getContentType env g path with
        | error e => rw [hc] at h; simp at h
        | ok ct =>
          rw [hc] at h
          simp only at h
          rw [ih _ _ h, getContentType_ok env g path ct hc, assertString_some _ _ hp]
          simp [resourceEntryOf]

theorem resourcesLoop_succeeds (env : Env) (g : Option Loc) (resources : List Resource)
    (hres : ∀ r ∈ resources, declaresPath r.Parameters = true →
      textualPath r.Parameters = true ∧ classifies env g (declaredPath r.Parameters) = true) :
    ∀ acc : List entry, ∃ out, resourcesLoop env g resources acc = .ok out := by
  induction resources with
  | nil => intro acc; exact ⟨acc, rfl⟩
  | cons r rest ih =>
    intro acc
    have ih' := ih (fun x hx => hres x (List.mem_cons_of_mem _ hx))
    rw [resourcesLoop]
    by_cases hn : r.Parameters.get "path" = .null
    · rw [if_pos hn]
      exact ih' _
    · rw [if_neg hn]
      have hd : declaresPath r.Parameters = true := by simp [declaresPath, hn]
      obtain ⟨ht, hc⟩ := hres r (List.mem_cons_self _ _) hd
      have hp : getResourcePath r = some (declaredPath r.Parameters) :=
        assertString_of_textual _ ht
      rw [hp]
      simp only
      rw [getContentType_of_classifies env g _ hc]
      exact ih' _

theorem setManifestDesc_ok (env : Env) (g : Option Loc) (mods : List Module)
    (resources : List Resource) (modules : List String) (only : Bool) (entries : List entry)
    (h : setManifestDesc env g mods resources modules only = .ok entries) :
    entries = expectedEntries env g mods resources modules only := by
  unfold setManifestDesc at h
  unfold expectedEntries
  cases hm : modulesLoop env g modules only mods [] with
  | panic => rw [hm] at h; simp at h
  | error e => rw [hm] at h; simp at h
  | ok es =>
    rw [hm] at h
    simp only at h
    have hes := modulesLoop_ok env g modules only mods _ _ hm
    rw [List.nil_append] at hes
    cases only with
    | true =>
      simp only [Bool.not_true, Bool.false_eq_true, if_false, Outcome.ok.injEq] at h
      simp [← h, hes]
    | false =>
      simp only [Bool.not_false, if_true] at h
      rw [resourcesLoop_ok env g resources _ _ h, hes]
      simp

/-- C8: when every declared path parameter is textual and no classification
fails, the entry list handed to `genManifest` is, for the included modules in
input order, the module's MTA-Module entry followed (module-only off) by one
MTA-Requires entry per requirement declaring a path, in declaration order,
named `<module-name>/<requires-name>` and carrying the declared path; and then
(module-only off) one MTA-Resource entry per resource declaring a path, in
input order, with the resource name and the declared path. -/
theorem setManifestDesc_entry_order (env : Env) (g : Option Loc) (mods : List Module)
    (resources : List Resource) (modules : List String) (only : Bool)
    (htextReq : ∀ m ∈ mods, ∀ r ∈ m.Requires, declaresPath r.Parameters = true →
      textualPath r.Parameters = true)
    (htextRes : ∀ r ∈ resources, declaresPath r.Parameters = true →
      textualPath r.Parameters = true)
    (hmod : ∀ m ∈ mods, included modules m = true →
      classifies env g (getModulePath env m g) = true)
    (hreq : only = false → ∀ m ∈ mods, included modules m = true → ∀ r ∈ m.Requires,
      declaresPath r.Parameters = true → classifies env g (declaredPath r.Parameters) = true)
    (hres : only = false → ∀ r ∈ resources, declaresPath r.Parameters = true →
      classifies env g (declaredPath r.Parameters) = true) :
    setManifestDesc env g mods resources modules only =
      .ok (expectedEntries env g mods resources modules only) := by
  have hsucc : ∃ entries, setManifestDesc env g mods resources modules only = .ok entries := by
    obtain ⟨es, hes⟩ := modulesLoop_succeeds env g modules only mods hmod
      (fun ho m hm hin r hr hd => ⟨htextReq m hm r hr hd, hreq ho m hm hin r hr hd⟩) []
    unfold setManifestDesc
    rw [hes]
    cases only with
    | true => exact ⟨es, rfl⟩
    | false =>
      simp only [Bool.not_false, if_true]
      exact resourcesLoop_succeeds env g resources
        (fun r hr hd => ⟨htextRes r hr hd, hres rfl r hr hd⟩) es
  obtain ⟨entries, he⟩ := hsucc
  rw [he, setManifestDesc_ok env g mods resources modules only entries he]

theorem setManifestDesc_entry_order_witness :
    setManifestDesc plainFiles (some ⟨"src", "tmp"⟩)
        [⟨"web", "webdir", [⟨"db", [("path", .str "db/schema")]⟩, ⟨"log", []⟩]⟩, ⟨"job", "jobdir", []⟩]
        [⟨"cfg", [("path", .str "cfg/files")]⟩, ⟨"svc", []⟩] [] false =
      .ok (expectedEntries plainFiles (some ⟨"src", "tmp"⟩)
        [⟨"web", "webdir", [⟨"db", [("path", .str "db/schema")]⟩, ⟨"log", []⟩]⟩, ⟨"job", "jobdir", []⟩]
        [⟨"cfg", [("path", .str "cfg/files")]⟩, ⟨"svc", []⟩] [] false) ∧
    expectedEntries plainFiles (some ⟨"src", "tmp"⟩)
        [⟨"web", "webdir", [⟨"db", [("path", .str "db/schema")]⟩, ⟨"log", []⟩]⟩, ⟨"job", "jobdir", []⟩]
        [⟨"cfg", [("path", .str "cfg/files")]⟩, ⟨"svc", []⟩] [] false =
      [⟨"web", "MTA-Module", "application/zip", "web/data.zip"⟩,
       ⟨"web/db", "MTA-Requires", "application/zip", "db/schema"⟩,
       ⟨"job", "MTA-Module", "application/zip", "job/data.zip"⟩,
       ⟨"cfg", "MTA-Resource", "application/zip", "cfg/files"⟩] :=
  ⟨setManifestDesc_entry_order plainFiles (some ⟨"src", "tmp"⟩)
      [⟨"web", "webdir", [⟨"db", [("path", .str "db/schema")]⟩, ⟨"log", []⟩]⟩, ⟨"job", "jobdir", []⟩]
      [⟨"cfg", [("path", .str "cfg/files")]⟩, ⟨"svc", []⟩] [] false
      (by decide) (by decide) (by decide) (by decide) (by decide),
   by decide⟩

theorem length_entries_sum (env : Env) (g : Option Loc) (mods : List Module) :
    ((mods.map (entriesOfModule env g false)).map List.length).sum =
      mods.length +
        (mods.map (fun m => m.Requires.countP (fun r => declaresPath r.Parameters))).sum := by
  induction mods with
  | nil => rfl
  | cons m rest ih =>
    simp only [List.map_cons, List.sum_cons, List.length_cons, ih]
    simp only [entriesOfModule, Bool.false_eq_true, if_false, List.length_cons, List.length_map,
      List.countP_eq_length_filter]
    omega

/-- C9: with module-only mode off and the inclusion set covering all modules
(empty, or listing every module name), whenever entry building succeeds the
number of entries is the number of modules, plus the number of requirements
declaring a path parameter summed over the modules, plus the number of
resources declaring a path parameter. -/
theorem setManifestDesc_entry_count (env : Env) (g : Option Loc) (mods : List Module)
    (resources : List Resource) (modules : List String) (entries : List entry)
    (hall : modules = [] ∨ ∀ m ∈ mods, m.Name ∈ modules)
    (h : setManifestDesc env g mods resources modules false = .ok entries) :
    entries.length = mods.length +
      (mods.map (fun m => m.Requires.countP (fun r => declaresPath r.Parameters))).sum +
      resources.countP (fun r => declaresPath r.Parameters) := by
  rw [setManifestDesc_ok env g mods resources modules false entries h]
  have hf : mods.filter (included modules) = mods := by
    apply List.filter_eq_self.2
    intro m hm
    rcases hall with h0 | h1
    · simp [included, h0]
    · simp [included, h1 m hm]
  unfold expectedEntries
  rw [hf]
  simp only [Bool.false_eq_true, if_false, List.length_append, List.length_flatten,
    List.length_map, length_entries_sum, List.countP_eq_length_filter]

theorem setManifestDesc_entry_count_witness :
    setManifestDesc plainFiles (some ⟨"src", "tmp"⟩)
        [⟨"web", "webdir", [⟨"db", [("path", .str "db/schema")]⟩, ⟨"log", []⟩]⟩, ⟨"job", "jobdir", []⟩]
        [⟨"cfg", [("path", .str "cfg/files")]⟩, ⟨"svc", []⟩] ["job", "web"] false =
      .ok [⟨"web", "MTA-Module", "application/zip", "web/data.zip"⟩,
           ⟨"web/db", "MTA-Requires", "application/zip", "db/schema"⟩,
           ⟨"job", "MTA-Module", "application/zip", "job/data.zip"⟩,
           ⟨"cfg", "MTA-Resource", "application/zip", "cfg/files"⟩] ∧
    List.length [(⟨"web", "MTA-Module", "application/zip", "web/data.zip"⟩ : entry),
           ⟨"web/db", "MTA-Requires", "application/zip", "db/schema"⟩,
           ⟨"job", "MTA-Module", "application/zip", "job/data.zip"⟩,
           ⟨"cfg", "MTA-Resource", "application/zip", "cfg/files"⟩] =
      List.length ([⟨"web", "webdir", [⟨"db", [("path", .str "db/schema")]⟩, ⟨"log", []⟩]⟩,
          ⟨"job", "jobdir", []⟩] : List Module) +
        (List.map (fun m : Module => m.Requires.countP (fun r => declaresPath r.Parameters))
          [⟨"web", "webdir", [⟨"db", [("path", .str "db/schema")]⟩, ⟨"log", []⟩]⟩,
            ⟨"job", "jobdir", []⟩]).sum +
        List.countP (fun r : Resource => declaresPath r.Parameters)
          [⟨"cfg", [("path", .str "cfg/files")]⟩, ⟨"svc", []⟩] :=
  ⟨by decide,
   setManifestDesc_entry_count plainFiles (some ⟨"src", "tmp"⟩)
      [⟨"web", "webdir", [⟨"db", [("path", .str "db/schema")]⟩, ⟨"log", []⟩]⟩, ⟨"job", "jobdir", []⟩]
      [⟨"cfg", [("path", .str "cfg/files")]⟩, ⟨"svc", []⟩] ["job", "web"] _
      (Or.inr (by decide)) (by decide)⟩

/-- C10: with the module-only flag set, whenever entry building succeeds the
entry list is exactly one MTA-Module entry per included module, in input order;
no entry has kind MTA-Requires or MTA-Resource, whatever the requirements and
the resources declare. -/
theorem setManifestDesc_only_modules (env : Env) (g : Option Loc) (mods : List Module)
    (resources : List Resource) (modules : List String) (entries : List entry)
    (h : setManifestDesc env g mods resources modules true = .ok entries) :
    entries = (mods.filter (included modules)).map (moduleEntryOf env g) ∧
      entries.length = (mods.filter (included modules)).length ∧
      ∀ e ∈ entries, e.EntryType = moduleEntry ∧ e.EntryType ≠ requiredEntry ∧
        e.EntryType ≠ resourceEntry := by
  have he : entries = (mods.filter (included modules)).map (moduleEntryOf env g) := by
    rw [setManifestDesc_ok env g mods resources modules true entries h]
    unfold expectedEntries
    simp only [if_true, List.append_nil]
    generalize mods.filter (included modules) = l
    induction l with
    | nil => rfl
    | cons m rest ih => simp [entriesOfModule, ih]
  refine ⟨he, by rw [he, List.length_map], ?_⟩
  intro e hmem
  rw [he] at hmem
  obtain ⟨m, _, rfl⟩ := List.mem_map.1 hmem
  have h1 : moduleEntry ≠ requiredEntry := by decide
  have h2 : moduleEntry ≠ resourceEntry := by decide
  exact ⟨rfl, h1, h2⟩

theorem setManifestDesc_only_modules_witness :
    setManifestDesc plainFiles (some ⟨"src", "tmp"⟩)
        [⟨"web", "webdir", [⟨"db", [("path", .str "db/schema")]⟩, ⟨"log", []⟩]⟩, ⟨"job", "jobdir", []⟩]
        [⟨"cfg", [("path", .str "cfg/files")]⟩, ⟨"svc", []⟩] ["web"] true =
      .ok [⟨"web", "MTA-Module", "application/zip", "web/data.zip"⟩] ∧
    List.length [(⟨"web", "MTA-Module", "application/zip", "web/data.zip"⟩ : entry)] =
      List.length (List.filter (included ["web"])
        [⟨"web", "webdir", [⟨"db", [("path", .str "db/schema")]⟩, ⟨"log", []⟩]⟩,
          ⟨"job", "jobdir", []⟩]) :=
  ⟨by decide,
   (setManifestDesc_only_modules plainFiles (some ⟨"src", "tmp"⟩)
      [⟨"web", "webdir", [⟨"db", [("path", .str "db/schema")]⟩, ⟨"log", []⟩]⟩, ⟨"job", "jobdir", []⟩]
      [⟨"cfg", [("path", .str "cfg/files")]⟩, ⟨"svc", []⟩] ["web"] _ (by decide)).2.1⟩

theorem zipPath_of_slash (env : Env) (m : Module) (h : env.Separator = '/') :
    zipPath env m = m.Name ++ "/data.zip" := by
  unfold zipPath ToSlash dataZip
  rw [if_pos h, h]
  rfl

theorem zipPath_of_not_mem (env : Env) (m : Module)
    (h1 : env.Separator ∉ m.Name.data) (h2 : env.Separator ∉ "data.zip".data) :
    zipPath env m = m.Name ++ "/data.zip" := by
  by_cases h : env.Separator = '/'
  · exact zipPath_of_slash env m h
  · unfold zipPath ToSlash dataZip
    rw [if_neg h, String.map_eq]
    apply String.ext
    simp only [String.data_append, String.data_singleton, List.map_append, List.map_cons,
      List.map_nil, if_true]
    have e1 : List.map (fun c => if c = env.Separator then '/' else c) m.Name.data = m.Name.data := by
      conv_rhs => rw [← List.map_id m.Name.data]
      apply List.map_congr_left
      intro c hc
      have : c ≠ env.Separator := fun e => h1 (e ▸ hc)
      simp [this]
    rw [e1]
    have h2' : ∀ c ∈ "data.zip".data, ¬ c = env.Separator := fun c hc e => h2 (e ▸ hc)
    simp only [String.data, List.mem_cons, List.mem_singleton, List.not_mem_nil, or_false,
      forall_eq_or_imp, forall_eq] at h2'
    obtain ⟨a1, a2, a3, a4, a5, a6, a7, a8⟩ := h2'
    simp only [a1, a2, a3, a5, a6, a7, a8, if_false]
    rfl

/-- C11: with no capability `getContentType` returns `application/zip` and no
error for every path, whatever the filesystem holds; with a capability it
stats the path joined under the temporary target directory and returns
`text/directory` for a directory, `application/zip` for any other existing
entry, and the classification error citing the joined path when nothing exists
there. -/
theorem getContentType_classifier (env : Env) (loc : Loc) (path : String) :
    getContentType env none path = .ok "application/zip" ∧
    (env.Stat (env.Join loc.targetTmpDir path) = .info true →
      getContentType env (some loc) path = .ok "text/directory") ∧
    (env.Stat (env.Join loc.targetTmpDir path) = .info false →
      getContentType env (some loc) path = .ok "application/zip") ∧
    (env.Stat (env.Join loc.targetTmpDir path) = .notExist →
      getContentType env (some loc) path =
        .error ("the " ++ env.Join loc.targetTmpDir path ++
          " path does not exist, content type not defined")) := by
  refine ⟨rfl, ?_, ?_, ?_⟩
  · intro h
    simp [getContentType, h, dirContentType]
  · intro h
    simp [getContentType, h, applicationZip]
  · intro h
    simp [getContentType, h]

theorem getContentType_classifier_witness :
    getContentType sourceOnly none "webdir" = .ok "application/zip" ∧
    getContentType sourceOnly (some ⟨"src", "tmp"⟩) "webdir" = .ok "text/directory" ∧
    getContentType plainFiles (some ⟨"src", "tmp"⟩) "webdir" = .ok "application/zip" ∧
    getContentType sourceOnly (some ⟨"src", "tmp"⟩) "web/data.zip" =
      .error "the tmp/web/data.zip path does not exist, content type not defined" :=
  ⟨(getContentType_classifier sourceOnly ⟨"src", "tmp"⟩ "webdir").1,
   (getContentType_classifier sourceOnly ⟨"src", "tmp"⟩ "webdir").2.1 (by decide),
   (getContentType_classifier plainFiles ⟨"src", "tmp"⟩ "webdir").2.2.1 (by decide),
   (getContentType_classifier sourceOnly ⟨"src", "tmp"⟩ "web/data.zip").2.2.2 (by decide)⟩

theorem firstStop_append (env : Env) (g : Option Loc) (a b : List Step) :
    firstStop env g (a ++ b) = (firstStop env g a).or (firstStop env g b) := by
  induction a with
  | nil => simp [firstStop]
  | cons s a ih =>
    cases s with
    | castFailure => simp [firstStop]
    | classify p ctx =>
      simp only [List.cons_append, firstStop]
      cases getContentType env g p with
      | error e => simp
      | ok ct => simpa using ih

theorem textual_iff_assert (params : Parameters) :
    textualPath params = false → (params.get "path").assertString = none := by
  intro h
  unfold textualPath at h
  cases hv : params.get "path" with
  | str t => rw [hv] at h; simp at h
  | null => rfl
  | int n => rfl
  | bool b => rfl

theorem buildEntriesLoop_spec (env : Env) (g : Option Loc) (m : Module) (ctx : String)
    (reqs : List Requires) :
    ∀ acc : List entry,
      (match buildEntriesLoop env g m reqs acc with
        | .ok out => Outcome.ok out
        | .error err => .error (wrapf err ctx)
        | .panic => .panic) =
      outcomeOf (firstStop env g (reqs.map (fun r => parameterStep r.Parameters ctx)))
        (acc ++ reqs.map (requiredEntryOf env g m)) := by
  induction reqs with
  | nil => intro acc; simp [buildEntriesLoop, firstStop, outcomeOf]
  | cons r rest ih =>
    intro acc
    rw [buildEntriesLoop]
    by_cases ht : textualPath r.Parameters = true
    · have hs : parameterStep r.Parameters ctx = .classify (declaredPath r.Parameters) ctx := by
        simp [parameterStep, ht]
      rw [assertString_of_textual _ ht, List.map_cons, hs, firstStop]
      cases hc : getContentType env g (declaredPath r.Parameters) with
      | error e => simp [hc, outcomeOf]
      | ok ct =>
        simp only [hc]
        rw [ih, getContentType_ok env g _ ct hc]
        simp [requiredEntryOf]
    · simp only [Bool.not_eq_true] at ht
      have hs : parameterStep r.Parameters ctx = .castFailure := by
        simp [parameterStep, ht]
      rw [textual_iff_assert _ ht, List.map_cons, hs]
      simp [firstStop, outcomeOf]

theorem outcomeOf_eq_ok (s : Option Stop) (l es : List entry) (h : Outcome.ok es = outcomeOf s l) :
    s = none ∧ es = l := by
  cases s with
  | none => simp only [outcomeOf, Outcome.ok.injEq] at h; exact ⟨rfl, h⟩
  | some st => cases st <;> simp [outcomeOf] at h

theorem outcomeOf_eq_error (s : Option Stop) (l : List entry) (msg : String)
    (h : Outcome.error msg = outcomeOf s l) : s = some (.error msg) := by
  cases s with
  | none => simp [outcomeOf] at h
  | some st =>
    cases st with
    | error m => simp only [outcomeOf, Outcome.error.injEq] at h; rw [h]
    | panic => simp [outcomeOf] at h

theorem outcomeOf_eq_panic (s : Option Stop) (l : List entry)
    (h : Outcome.panic = outcomeOf s l) : s = some .panic := by
  cases s with
  | none => simp [outcomeOf] at h
  | some st =>
    cases st with
    | error m => simp [outcomeOf] at h
    | panic => rfl

theorem modulesLoop_spec (env : Env) (g : Option Loc) (modules : List String) (only : Bool)
    (mods : List Module) :
    ∀ acc : List entry, modulesLoop env g modules only mods acc =
      outcomeOf
        (firstStop env g ((mods.filter (included modules)).map (stepsOfModule env g only)).flatten)
        (acc ++ ((mods.filter (included modules)).map (entriesOfModule env g only)).flatten) := by
  induction mods with
  | nil => intro acc; simp [modulesLoop, firstStop, outcomeOf]
  | cons m rest ih =>
    intro acc
    rw [modulesLoop, moduleDefined_eq_included]
    by_cases hin : included modules m = true
    · rw [if_pos hin, List.filter_cons_of_pos hin, List.map_cons, List.map_cons,
        List.flatten_cons, List.flatten_cons]
      cases only with
      | true =>
        simp only [stepsOfModule, if_true, List.cons_append, List.nil_append, firstStop]
        cases hc : getContentType env g (getModulePath env m g) with
        | error e => simp [outcomeOf, moduleContext]
        | ok ct =>
          simp only
          rw [ih, getContentType_ok env g _ ct hc]
          simp [entriesOfModule, moduleEntryOf]
      | false =>
        simp only [stepsOfModule, Bool.false_eq_true, if_false, List.cons_append, firstStop]
        cases hc : getContentType env g (getModulePath env m g) with
        | error e => simp [outcomeOf, moduleContext]
        | ok ct =>
          simp only [List.append_eq]
          rw [firstStop_append]
          have hb := buildEntriesLoop_spec env g m (requiredContext m)
            (getRequiredDependencies m) []
          have hb' : buildEntries env g m (getRequiredDependencies m) =
              buildEntriesLoop env g m (getRequiredDependencies m) [] := rfl
          rw [← hb'] at hb
          have hreqs : getRequiredDependencies m =
              m.Requires.filter (fun r => declaresPath r.Parameters) := rfl
          rw [hreqs] at hb
          rw [hreqs]
          cases hbe : buildEntries env g m (m.Requires.filter (fun r => declaresPath r.Parameters)) with
          | panic =>
            rw [hbe] at hb
            rw [outcomeOf_eq_panic _ _ hb]
            rfl
          | error err =>
            rw [hbe] at hb
            rw [outcomeOf_eq_error _ _ _ hb]
            simp [outcomeOf, requiredContext]
          | ok es =>
            rw [hbe] at hb
            obtain ⟨h1, h2⟩ := outcomeOf_eq_ok _ _ _ hb
            rw [h1]
            simp only [Option.or, ih]
            rw [h2, getContentType_ok env g _ ct hc]
            simp [entriesOfModule, moduleEntryOf]
    · rw [if_neg hin, List.filter_cons_of_neg hin]
      exact ih acc

theorem resourcesLoop_spec (env : Env) (g : Option Loc) (resources : List Resource) :
    ∀ acc : List entry, resourcesLoop env g resources acc =
      outcomeOf
        (firstStop env g ((resources.filter (fun r => declaresPath r.Parameters)).map
          (fun r => parameterStep r.Parameters (resourceContext r))))
        (acc ++ (resources.filter (fun r => declaresPath r.Parameters)).map
          (resourceEntryOf env g)) := by
  induction resources with
  | nil => intro acc; simp [resourcesLoop, firstStop, outcomeOf]
  | cons r rest ih =>
    intro acc
    rw [resourcesLoop]
    by_cases hn : r.Parameters.get "path" = .null
    · have hd : declaresPath r.Parameters = false := by simp [declaresPath, hn]
      rw [if_pos hn]
      simp only [List.filter_cons, hd, Bool.false_eq_true, if_false]
      exact ih acc
    · have hd : declaresPath r.Parameters = true := by simp [declaresPath, hn]
      rw [if_neg hn]
      simp only [List.filter_cons, hd, if_true, List.map_cons]
      by_cases ht : textualPath r.Parameters = true
      · have hs : parameterStep r.Parameters (resourceContext r) =
            .classify (declaredPath r.Parameters) (resourceContext r) := by
          simp [parameterStep, ht]
        have hp : getResourcePath r = some (declaredPath r.Parameters) :=
          assertString_of_textual _ ht
        rw [hp, hs, firstStop]
        cases hc : getContentType env g (declaredPath r.Parameters) with
        | error e => simp [hc, outcomeOf, resourceContext]
        | ok ct =>
          simp only [hc]
          rw [ih, getContentType_ok env g _ ct hc]
          simp [resourceEntryOf]
      · simp only [Bool.not_eq_true] at ht
        have hs : parameterStep r.Parameters (resourceContext r) = .castFailure := by
          simp [parameterStep, ht]
        have hp : getResourcePath r = none := textual_iff_assert _ ht
        rw [hp, hs]
        simp [firstStop, outcomeOf]

theorem setManifestDesc_spec (env : Env) (g : Option Loc) (mods : List Module)
    (resources : List Resource) (modules : List String) (only : Bool) :
    setManifestDesc env g mods resources modules only =
      outcomeOf (firstStop env g (steps env g mods resources modules only))
        (expectedEntries env g mods resources modules only) := by
  unfold setManifestDesc steps expectedEntries
  rw [modulesLoop_spec, firstStop_append, List.nil_append]
  cases hs : firstStop env g
      ((mods.filter (included modules)).map (stepsOfModule env g only)).flatten with
  | some st => cases st <;> simp [outcomeOf]
  | none =>
    cases only with
    | true => simp [outcomeOf, firstStop]
    | false =>
      simp only [outcomeOf, Bool.not_false, if_true, Bool.false_eq_true, if_false, Option.or]
      rw [resourcesLoop_spec]
      rfl

theorem getContentType_error_form (env : Env) (loc : Loc) (p err : String)
    (h : getContentType env (some loc) p = .error err) :
    err = pathError (env.Join loc.targetTmpDir p) := by
  unfold getContentType at h
  simp only at h
  cases hs : env.Stat (env.Join loc.targetTmpDir p) with
  | info d =>
    rw [hs] at h
    cases d <;> simp at h
  | notExist =>
    rw [hs] at h
    simp only [Except.error.injEq] at h
    exact h.symm
  | otherError =>
    rw [hs] at h
    simp only [Except.error.injEq] at h
    exact h.symm

theorem firstStop_no_cast (env : Env) (loc : Loc) (l : List Step)
    (h : Step.castFailure ∉ l) :
    firstStop env (some loc) l = none ∨
      ∃ p ctx, firstStop env (some loc) l =
        some (.error (wrapf (pathError (env.Join loc.targetTmpDir p)) ctx)) := by
  induction l with
  | nil => exact Or.inl rfl
  | cons s l ih =>
    cases s with
    | castFailure => exact absurd (List.mem_cons_self _ _) h
    | classify p ctx =>
      simp only [firstStop]
      cases hc : getContentType env (some loc) p with
      | error e =>
        right
        exact ⟨p, ctx, by rw [getContentType_error_form env loc p e hc]⟩
      | ok ct => exact ih (fun hm => h (List.mem_cons_of_mem _ hm))

/-- C13, as stated, fails: the second resource declares a path whose
classification fails, but the first resource declares a non-textual path, and
the call ends in the panic of the type assertion instead of returning the
error. -/
theorem abort_preempted_by_cast_failure :
    getContentType sourceOnly (some ⟨"src", "tmp"⟩) "missing" =
        .error "the tmp/missing path does not exist, content type not defined" ∧
      setManifestDesc sourceOnly (some ⟨"src", "tmp"⟩) []
        [⟨"cfg", [("path", .int 5)]⟩, ⟨"db", [("path", .str "missing")]⟩] [] false = .panic := by
  refine ⟨by decide, by decide⟩

theorem flatten_map_ite (env : Env) (g : Option Loc) (only : Bool) (modules : List String)
    (mods : List Module) :
    ((mods.filter (included modules)).map (entriesOfModule env g only)).flatten =
      (mods.map (fun m => if modules = [] ∨ m.Name ∈ modules then entriesOfModule env g only m
        else [])).flatten := by
  induction mods with
  | nil => rfl
  | cons m rest ih =>
    by_cases h : modules = [] ∨ m.Name ∈ modules
    · have hin : included modules m = true := by simp [included, h]
      rw [List.filter_cons_of_pos hin]
      simp only [List.map_cons, List.flatten_cons, ih, h, if_true]
    · have hin : ¬ included modules m = true := by simp [included, h]
      rw [List.filter_cons_of_neg hin]
      simp only [List.map_cons, List.flatten_cons, ih, h, if_false, List.nil_append]

theorem moduleEntry_mem_expected (env : Env) (g : Option Loc) (mods : List Module)
    (resources : List Resource) (modules : List String) (only : Bool) (m : Module)
    (h : moduleEntryOf env g m ∈ expectedEntries env g mods resources modules only) :
    ∃ m' ∈ mods, included modules m' = true ∧ m'.Name = m.Name := by
  unfold expectedEntries at h
  rcases List.mem_append.1 h with h1 | h2
  · obtain ⟨l, hl, hml⟩ := List.mem_flatten.1 h1
    obtain ⟨m', hm', rfl⟩ := List.mem_map.1 hl
    obtain ⟨hm1, hm2⟩ := List.mem_filter.1 hm'
    refine ⟨m', hm1, hm2, ?_⟩
    unfold entriesOfModule at hml
    rcases List.mem_cons.1 hml with e | e
    · have := congrArg entry.EntryName e
      exact this.symm
    · cases only with
      | true => simp at e
      | false =>
        simp only [Bool.false_eq_true, if_false] at e
        obtain ⟨r, _, hr⟩ := List.mem_map.1 e
        have := congrArg entry.EntryType hr
        simp [requiredEntryOf, moduleEntryOf, requiredEntry, moduleEntry] at this
  · cases only with
    | true => simp at h2
    | false =>
      simp only [Bool.false_eq_true, if_false] at h2
      obtain ⟨r, _, hr⟩ := List.mem_map.1 h2
      have := congrArg entry.EntryType hr
      simp [resourceEntryOf, moduleEntryOf, resourceEntry, moduleEntry] at this

/-- C14: `moduleDefined name list` holds exactly when the list is empty or
contains the name; and whenever entry building succeeds, each module
contributes its entries (its Module entry, then with module-only off its
RequiredDependency entries) when the inclusion set is empty or contains its
name, and nothing otherwise, so the Module entry of a module is in the list
exactly when the module is included. -/
theorem moduleDefined_inclusion (env : Env) (g : Option Loc) (mods : List Module)
    (resources : List Resource) (modules : List String) (only : Bool) (entries : List entry) :
    (∀ name list, moduleDefined name list = true ↔ (list = [] ∨ name ∈ list)) ∧
    (setManifestDesc env g mods resources modules only = .ok entries →
      entries =
        (mods.map (fun m => if modules = [] ∨ m.Name ∈ modules then
            entriesOfModule env g only m else [])).flatten
          ++ (if only then []
              else (resources.filter (fun r => declaresPath r.Parameters)).map
                (resourceEntryOf env g)) ∧
      ∀ m ∈ mods, (moduleEntryOf env g m ∈ entries ↔ (modules = [] ∨ m.Name ∈ modules))) := by
  constructor
  · intro name list
    have h := moduleDefined_eq_included list ⟨name, "", []⟩
    simp only [included] at h
    rw [h]
    simp
  · intro hok
    have he := setManifestDesc_ok env g mods resources modules only entries hok
    refine ⟨?_, ?_⟩
    · rw [he]
      unfold expectedEntries
      rw [flatten_map_ite]
    · intro m hm
      constructor
      · intro hmem
        rw [he] at hmem
        obtain ⟨m', _, hin, hname⟩ := moduleEntry_mem_expected env g mods resources modules only m hmem
        simpa [included, hname] using hin
      · intro hin
        rw [he]
        unfold expectedEntries
        apply List.mem_append_left
        apply List.mem_flatten.2
        refine ⟨entriesOfModule env g only m, ?_, ?_⟩
        · exact List.mem_map.2 ⟨m, List.mem_filter.2 ⟨hm, by simp [included, hin]⟩, rfl⟩
        · unfold entriesOfModule
          exact List.mem_cons_self _ _

theorem moduleDefined_inclusion_witness :
    setManifestDesc plainFiles (some ⟨"src", "tmp"⟩)
        [⟨"web", "webdir", [⟨"db", [("path", .str "db/schema")]⟩]⟩, ⟨"job", "jobdir", []⟩]
        [] ["web"] false =
      .ok [⟨"web", "MTA-Module", "application/zip", "web/data.zip"⟩,
           ⟨"web/db", "MTA-Requires", "application/zip", "db/schema"⟩] ∧
    (moduleEntryOf plainFiles (some ⟨"src", "tmp"⟩) ⟨"job", "jobdir", []⟩ ∈
        [(⟨"web", "MTA-Module", "application/zip", "web/data.zip"⟩ : entry),
           ⟨"web/db", "MTA-Requires", "application/zip", "db/schema"⟩] ↔
      (["web"] = [] ∨ "job" ∈ ["web"])) :=
  ⟨by decide,
   ((moduleDefined_inclusion plainFiles (some ⟨"src", "tmp"⟩)
      [⟨"web", "webdir", [⟨"db", [("path", .str "db/schema")]⟩]⟩, ⟨"job", "jobdir", []⟩]
      [] ["web"] false _).2 (by decide)).2 ⟨"job", "jobdir", []⟩ (by decide)⟩

theorem mem_steps (env : Env) (g : Option Loc) (mods : List Module)
    (resources : List Resource) (modules : List String) (s : Step)
    (h : s ∈ steps env g mods resources modules false) :
    (∃ m ∈ mods, included modules m = true ∧
      (s = .classify (getModulePath env m g) (moduleContext m) ∨
        ∃ r ∈ m.Requires, declaresPath r.Parameters = true ∧
          s = parameterStep r.Parameters (requiredContext m))) ∨
    ∃ r ∈ resources, declaresPath r.Parameters = true ∧
      s = parameterStep r.Parameters (resourceContext r) := by
  unfold steps at h
  simp only [Bool.false_eq_true, if_false] at h
  rcases List.mem_append.1 h with h1 | h2
  · left
    obtain ⟨l, hl, hsl⟩ := List.mem_flatten.1 h1
    obtain ⟨m, hm, rfl⟩ := List.mem_map.1 hl
    obtain ⟨hm1, hm2⟩ := List.mem_filter.1 hm
    refine ⟨m, hm1, hm2, ?_⟩
    unfold stepsOfModule at hsl
    simp only [Bool.false_eq_true, if_false] at hsl
    rcases List.mem_cons.1 hsl with e | e
    · exact Or.inl e
    · obtain ⟨r, hr, hrs⟩ := List.mem_map.1 e
      obtain ⟨hr1, hr2⟩ := List.mem_filter.1 hr
      exact Or.inr ⟨r, hr1, hr2, hrs.symm⟩
  · right
    obtain ⟨r, hr, hrs⟩ := List.mem_map.1 h2
    obtain ⟨hr1, hr2⟩ := List.mem_filter.1 hr
    exact ⟨r, hr1, hr2, hrs.symm⟩

/-- C18, as stated, fails: the resource declares a non-textual path, but in
module-only mode the resources are not visited and the entry list is
returned. -/
theorem cast_failure_skipped_in_module_only_mode :
    declaresPath [("path", .int 5)] = true ∧ textualPath [("path", .int 5)] = false ∧
      setManifestDesc plainFiles none [⟨"web", "webdir", []⟩]
          [⟨"cfg", [("path", .int 5)]⟩] [] true =
        .ok [⟨"web", "MTA-Module", "application/zip", "web/data.zip"⟩] := by
  refine ⟨by decide, by decide, by decide⟩

theorem stepsOfModules_no_cast (env : Env) (g : Option Loc) (modules : List String)
    (only : Bool) (pre : List Module)
    (htext : only = false → ∀ m ∈ pre, included modules m = true → ∀ r ∈ m.Requires,
      declaresPath r.Parameters = true → textualPath r.Parameters = true) :
    Step.castFailure ∉
      ((pre.filter (included modules)).map (stepsOfModule env g only)).flatten := by
  intro hmem
  obtain ⟨l, hl, hsl⟩ := List.mem_flatten.1 hmem
  obtain ⟨m, hm, rfl⟩ := List.mem_map.1 hl
  obtain ⟨hm1, hm2⟩ := List.mem_filter.1 hm
  unfold stepsOfModule at hsl
  rcases List.mem_cons.1 hsl with e | e
  · simp at e
  · cases only with
    | true => simp at e
    | false =>
      simp only [Bool.false_eq_true, if_false] at e
      obtain ⟨r, hr, hrs⟩ := List.mem_map.1 e
      obtain ⟨hr1, hr2⟩ := List.mem_filter.1 hr
      simp [parameterStep, htext rfl m hm1 hm2 r hr1 hr2] at hrs

/-- C20, as stated, fails: the artifact of `web` exists under the source
directory only, but the included module before it declares a non-textual path
in a requirement, and the call ends in the panic of the type assertion before
`web` is reached. -/
theorem mismatch_preempted_by_cast_failure :
    sourceOnly.Stat (sourceOnly.Join "src" (zipPath sourceOnly ⟨"web", "webdir", []⟩)) =
        .info false ∧
      sourceOnly.Stat (sourceOnly.Join "tmp" (zipPath sourceOnly ⟨"web", "webdir", []⟩)) =
        .notExist ∧
      setManifestDesc sourceOnly (some ⟨"src", "tmp"⟩)
        [⟨"job", "webdir", [⟨"db", [("path", .int 1)]⟩]⟩, ⟨"web", "webdir", []⟩] [] [] false =
        .panic := by
  refine ⟨by decide, by decide, by decide⟩

/-- C20, amended: with a capability supplied, if the artifact of a module
exists under the source directory while nothing exists at that relative path
under the temporary target directory, then `getModulePath` returns the
synthesized `<module-name>/data.zip` and `getContentType` fails on it; so for
an included module the iteration of the module loop returns the classification
error before any entry of the module is appended, and `setManifestDesc`
returns a classification error, provided module-only mode is on or every path
parameter declared by a requirement of an included module before it is
textual. -/
theorem setManifestDesc_source_only (env : Env) (loc : Loc) (pre post : List Module)
    (m : Module) (resources : List Resource) (modules : List String) (only : Bool)
    (isDir : Bool)
    (hin : included modules m = true)
    (hsrc : env.Stat (env.Join loc.source (zipPath env m)) = .info isDir)
    (htmp : env.Stat (env.Join loc.targetTmpDir (zipPath env m)) = .notExist)
    (htext : only = false → ∀ m' ∈ pre, included modules m' = true → ∀ r ∈ m'.Requires,
      declaresPath r.Parameters = true → textualPath r.Parameters = true) :
    getModulePath env m (some loc) = zipPath env m ∧
    getContentType env (some loc) (zipPath env m) =
      .error (pathError (env.Join loc.targetTmpDir (zipPath env m))) ∧
    (∀ rest acc, modulesLoop env (some loc) modules only (m :: rest) acc =
      .error (wrapf (pathError (env.Join loc.targetTmpDir (zipPath env m))) (moduleContext m))) ∧
    ∃ path context,
      setManifestDesc env (some loc) (pre ++ m :: post) resources modules only =
        .error (wrapf (pathError (env.Join loc.targetTmpDir path)) context) := by
  have hpath : getModulePath env m (some loc) = zipPath env m := by
    unfold zipPath at hsrc
    simp [getModulePath, existsModuleZipInDirectories, hsrc, zipPath]
  have hct : getContentType env (some loc) (zipPath env m) =
      .error (pathError (env.Join loc.targetTmpDir (zipPath env m))) := by
    simp [getContentType, htmp, pathError]
  refine ⟨hpath, hct, ?_, ?_⟩
  · intro rest acc
    rw [modulesLoop, moduleDefined_eq_included, if_pos hin, hpath, hct]
    rfl
  · rw [setManifestDesc_spec]
    unfold steps
    rw [List.filter_append, List.map_append, List.flatten_append, List.filter_cons_of_pos hin,
      List.map_cons, List.flatten_cons, List.append_assoc, firstStop_append]
    rcases firstStop_no_cast env loc _
        (stepsOfModules_no_cast env (some loc) modules only pre htext) with h | ⟨p, ctx, h⟩
    · rw [h]
      refine ⟨zipPath env m, moduleContext m, ?_⟩
      simp [stepsOfModule, firstStop, hpath, hct, outcomeOf]
    · rw [h]
      exact ⟨p, ctx, rfl⟩

theorem setManifestDesc_source_only_witness :
    getModulePath sourceOnly ⟨"web", "webdir", []⟩ (some ⟨"src", "tmp"⟩) = "web/data.zip" ∧
    getContentType sourceOnly (some ⟨"src", "tmp"⟩) "web/data.zip" =
      .error "the tmp/web/data.zip path does not exist, content type not defined" ∧
    setManifestDesc sourceOnly (some ⟨"src", "tmp"⟩)
        [⟨"job", "webdir", []⟩, ⟨"web", "webdir", []⟩] [] [] false =
      .error (wrapf "the tmp/web/data.zip path does not exist, content type not defined"
        "generation of the manifest failed when getting the web module content type") :=
  ⟨(setManifestDesc_source_only sourceOnly ⟨"src", "tmp"⟩ [⟨"job", "webdir", []⟩] []
      ⟨"web", "webdir", []⟩ [] [] false false (by decide) (by decide) (by decide)
      (by decide)).1,
   (setManifestDesc_source_only sourceOnly ⟨"src", "tmp"⟩ [⟨"job", "webdir", []⟩] []
      ⟨"web", "webdir", []⟩ [] [] false false (by decide) (by decide) (by decide)
      (by decide)).2.1,
   by decide⟩

/-- C12, as stated, fails twice.  When `stat` fails with an error other than
not-exist the artifact is found under neither directory, yet the zip path is
returned and not the declared path of the module; and with the backslash as
separator the synthesized path of a module whose name holds a backslash is not
the module name followed by `/data.zip`. -/
theorem path_preference_fails :
    (notADirectory.Stat (notADirectory.Join "src" "web/data.zip") = .otherError ∧
      notADirectory.Stat (notADirectory.Join "tmp" "web/data.zip") = .notExist ∧
      getModulePath notADirectory ⟨"web", "webdir", []⟩ (some ⟨"src", "tmp"⟩) = "web/data.zip" ∧
      getModulePath notADirectory ⟨"web", "webdir", []⟩ (some ⟨"src", "tmp"⟩) ≠ "webdir") ∧
    (getModulePath backslashSeparator ⟨"a\\b", "webdir", []⟩ none = "a/b/data.zip" ∧
      getModulePath backslashSeparator ⟨"a\\b", "webdir", []⟩ none ≠ "a\\b" ++ "/data.zip") := by
  have hb : getModulePath backslashSeparator ⟨"a\\b", "webdir", []⟩ none = "a/b/data.zip" := by
    have hsep : ¬ backslashSeparator.Separator = '/' := by decide
    simp only [getModulePath, ToSlash, if_neg hsep]
    rw [String.map_eq]
    decide
  refine ⟨⟨by decide, by decide, by decide, by decide⟩, hb, ?_⟩
  rw [hb]
  decide

/-- C12, amended: with no capability the entry path of a module is the
synthesized zip path, whatever the filesystem holds; with a capability it is
that path when `stat` of the artifact under the source directory or under the
temporary target directory does not report not-exist (the artifact exists, or
`stat` fails with another error), and the declared source path of the module
when `stat` reports not-exist under both.  The synthesized path is
`filepath.ToSlash(name + separator + "data.zip")`, which reads
`<module-name>/data.zip` when the separator is the slash or occurs neither in
the module name nor in `data.zip`. -/
theorem getModulePath_preference (env : Env) (m : Module) (loc : Loc) :
    getModulePath env m none = zipPath env m ∧
    (env.Stat (env.Join loc.source (zipPath env m)) ≠ .notExist ∨
        env.Stat (env.Join loc.targetTmpDir (zipPath env m)) ≠ .notExist →
      getModulePath env m (some loc) = zipPath env m) ∧
    (env.Stat (env.Join loc.source (zipPath env m)) = .notExist →
      env.Stat (env.Join loc.targetTmpDir (zipPath env m)) = .notExist →
      getModulePath env m (some loc) = m.Path) ∧
    ((env.Separator = '/' ∨
        (env.Separator ∉ m.Name.data ∧ env.Separator ∉ "data.zip".data)) →
      zipPath env m = m.Name ++ "/data.zip") := by
  refine ⟨rfl, ?_, ?_, ?_⟩
  · rintro (h | h)
    · unfold zipPath at h
      simp [getModulePath, existsModuleZipInDirectories, h, zipPath]
    · unfold zipPath at h
      by_cases hs : env.Stat (env.Join loc.source (ToSlash env (m.Name ++ dataZip env))) = .notExist
      · simp [getModulePath, existsModuleZipInDirectories, h, hs, zipPath]
      · simp [getModulePath, existsModuleZipInDirectories, hs, zipPath]
  · intro h1 h2
    unfold zipPath at h1 h2
    simp [getModulePath, existsModuleZipInDirectories, h1, h2]
  · rintro (h | ⟨h1, h2⟩)
    · exact zipPath_of_slash env m h
    · exact zipPath_of_not_mem env m h1 h2

theorem getModulePath_preference_witness :
    getModulePath sourceOnly ⟨"web", "webdir", []⟩ none = "web/data.zip" ∧
    getModulePath sourceOnly ⟨"web", "webdir", []⟩ (some ⟨"src", "tmp"⟩) = "web/data.zip" ∧
    getModulePath plainFiles ⟨"web", "webdir", []⟩ (some ⟨"tmp", "src"⟩) = "web/data.zip" ∧
    getModulePath notADirectory ⟨"web", "webdir", []⟩ (some ⟨"src", "tmp"⟩) = "web/data.zip" ∧
    getModulePath sourceOnly ⟨"job", "jobdir", []⟩ (some ⟨"src", "tmp"⟩) = "jobdir" :=
  ⟨((getModulePath_preference sourceOnly ⟨"web", "webdir", []⟩ ⟨"src", "tmp"⟩).1).trans
      ((getModulePath_preference sourceOnly ⟨"web", "webdir", []⟩ ⟨"src", "tmp"⟩).2.2.2
        (Or.inl rfl)),
   ((getModulePath_preference sourceOnly ⟨"web", "webdir", []⟩ ⟨"src", "tmp"⟩).2.1
      (Or.inl (by decide))).trans
      ((getModulePath_preference sourceOnly ⟨"web", "webdir", []⟩ ⟨"src", "tmp"⟩).2.2.2
        (Or.inl rfl)),
   ((getModulePath_preference plainFiles ⟨"web", "webdir", []⟩ ⟨"tmp", "src"⟩).2.1
      (Or.inr (by decide))).trans
      ((getModulePath_preference plainFiles ⟨"web", "webdir", []⟩ ⟨"tmp", "src"⟩).2.2.2
        (Or.inl rfl)),
   ((getModulePath_preference notADirectory ⟨"web", "webdir", []⟩ ⟨"src", "tmp"⟩).2.1
      (Or.inl (by decide))).trans
      ((getModulePath_preference notADirectory ⟨"web", "webdir", []⟩ ⟨"src", "tmp"⟩).2.2.2
        (Or.inl rfl)),
   (getModulePath_preference sourceOnly ⟨"job", "jobdir", []⟩ ⟨"src", "tmp"⟩).2.2.1
      (by decide) (by decide)⟩

theorem firstStop_prefix_ok (env : Env) (g : Option Loc) (pre rest : List Step)
    (h : ∀ s ∈ pre, ∃ q c, s = Step.classify q c ∧ classifies env g q = true) :
    firstStop env g (pre ++ rest) = firstStop env g rest := by
  induction pre with
  | nil => rfl
  | cons s pre ih =>
    obtain ⟨q, c, rfl, hq⟩ := h s (List.mem_cons_self _ _)
    have hq' := getContentType_of_classifies env g q hq
    simp only [List.cons_append, firstStop, hq']
    exact ih (fun x hx => h x (List.mem_cons_of_mem _ hx))

theorem firstStop_prefix_panic (env : Env) (g : Option Loc) (pre post : List Step)
    (h : ∀ q c, Step.classify q c ∈ pre → classifies env g q = true) :
    firstStop env g (pre ++ Step.castFailure :: post) = some .panic := by
  induction pre with
  | nil => rfl
  | cons s pre ih =>
    cases s with
    | castFailure => rfl
    | classify q c =>
      have hq' := getContentType_of_classifies env g q (h q c (List.mem_cons_self _ _))
      simp only [List.cons_append, firstStop, hq']
      exact ih (fun q' c' hm => h q' c' (List.mem_cons_of_mem _ hm))

theorem firstStop_no_error (env : Env) (g : Option Loc) (l : List Step)
    (h : ∀ q c, Step.classify q c ∈ l → classifies env g q = true) (msg : String) :
    firstStop env g l ≠ some (.error msg) := by
  induction l with
  | nil => simp [firstStop]
  | cons s l ih =>
    cases s with
    | castFailure => simp [firstStop]
    | classify q c =>
      have hq' := getContentType_of_classifies env g q (h q c (List.mem_cons_self _ _))
      simp only [firstStop, hq']
      exact ih (fun q' c' hm => h q' c' (List.mem_cons_of_mem _ hm))

/-- C13, amended: if the classification of a path that has to be classified
fails, and before it in entry order every classification succeeds and no type
assertion on a non-textual path parameter is reached, `setManifestDesc` returns
the error of that first failing path, wrapped with the message naming the
owning module or resource and the phase, and `genManifest` is not called; and
if no classification fails, entry building returns no error. -/
theorem setManifestDesc_abort (env : Env) (g : Option Loc) (mods : List Module)
    (resources : List Resource) (modules : List String) (only : Bool) :
    (∀ pre p ctx post err,
        steps env g mods resources modules only = pre ++ Step.classify p ctx :: post →
        (∀ s ∈ pre, ∃ q c, s = Step.classify q c ∧ classifies env g q = true) →
        getContentType env g p = .error err →
        setManifestDesc env g mods resources modules only = .error (wrapf err ctx)) ∧
      ((∀ p ctx, Step.classify p ctx ∈ steps env g mods resources modules only →
          classifies env g p = true) →
        ∀ msg, setManifestDesc env g mods resources modules only ≠ .error msg) := by
  constructor
  · intro pre p ctx post err hsteps hpre herr
    rw [setManifestDesc_spec, hsteps, firstStop_prefix_ok env g pre _ hpre]
    simp [firstStop, herr, outcomeOf]
  · intro hall msg hres
    rw [setManifestDesc_spec] at hres
    have hne := firstStop_no_error env g _ hall msg
    exact hne (outcomeOf_eq_error _ _ _ hres.symm)

theorem setManifestDesc_abort_witness :
    setManifestDesc sourceOnly (some ⟨"src", "tmp"⟩)
        [⟨"job", "webdir", [⟨"db", [("path", .str "db/schema")]⟩]⟩]
        [⟨"cfg", [("path", .int 5)]⟩] [] false =
      .error (wrapf "the tmp/db/schema path does not exist, content type not defined"
        "generation of the manifest failed when building required entries of the job module") ∧
    ∀ msg, setManifestDesc plainFiles (some ⟨"src", "tmp"⟩)
        [⟨"job", "webdir", [⟨"db", [("path", .str "db/schema")]⟩]⟩]
        [⟨"cfg", [("path", .int 5)]⟩] [] false ≠ .error msg :=
  ⟨(setManifestDesc_abort sourceOnly (some ⟨"src", "tmp"⟩)
      [⟨"job", "webdir", [⟨"db", [("path", .str "db/schema")]⟩]⟩]
      [⟨"cfg", [("path", .int 5)]⟩] [] false).1
      [.classify "webdir" (moduleContext ⟨"job", "webdir", [⟨"db", [("path", .str "db/schema")]⟩]⟩)]
      "db/schema" (requiredContext ⟨"job", "webdir", [⟨"db", [("path", .str "db/schema")]⟩]⟩)
      [.castFailure]
      "the tmp/db/schema path does not exist, content type not defined"
      (by decide)
      (fun s hs => ⟨"webdir", _, List.mem_singleton.1 hs, by decide⟩)
      (by decide),
   (setManifestDesc_abort plainFiles (some ⟨"src", "tmp"⟩)
      [⟨"job", "webdir", [⟨"db", [("path", .str "db/schema")]⟩]⟩]
      [⟨"cfg", [("path", .int 5)]⟩] [] false).2
      (fun _ _ _ => rfl)⟩

theorem castFailure_mem_steps (env : Env) (g : Option Loc) (mods : List Module)
    (resources : List Resource) (modules : List String) (only : Bool) :
    Step.castFailure ∈ steps env g mods resources modules only ↔
      only = false ∧
        ((∃ m ∈ mods, included modules m = true ∧ ∃ r ∈ m.Requires,
            declaresPath r.Parameters = true ∧ textualPath r.Parameters = false) ∨
          ∃ r ∈ resources, declaresPath r.Parameters = true ∧
            textualPath r.Parameters = false) := by
  cases only with
  | true =>
    simp only [Bool.true_eq_false, false_and, iff_false]
    intro hmem
    unfold steps at hmem
    simp only [if_true, List.append_nil] at hmem
    obtain ⟨l, hl, hsl⟩ := List.mem_flatten.1 hmem
    obtain ⟨m, _, rfl⟩ := List.mem_map.1 hl
    simp [stepsOfModule] at hsl
  | false =>
    simp only [true_and]
    constructor
    · intro hmem
      rcases mem_steps env g mods resources modules _ hmem with
        ⟨m, hm, hin, h | ⟨r, hr, hd, hs⟩⟩ | ⟨r, hr, hd, hs⟩
      · simp at h
      · left
        refine ⟨m, hm, hin, r, hr, hd, ?_⟩
        by_contra ht
        simp only [Bool.not_eq_false] at ht
        simp [parameterStep, ht] at hs
      · right
        refine ⟨r, hr, hd, ?_⟩
        by_contra ht
        simp only [Bool.not_eq_false] at ht
        simp [parameterStep, ht] at hs
    · intro hbad
      unfold steps
      simp only [Bool.false_eq_true, if_false]
      rcases hbad with ⟨m, hm, hin, r, hr, hd, ht⟩ | ⟨r, hr, hd, ht⟩
      · apply List.mem_append_left
        apply List.mem_flatten.2
        refine ⟨stepsOfModule env g false m,
          List.mem_map.2 ⟨m, List.mem_filter.2 ⟨hm, hin⟩, rfl⟩, ?_⟩
        unfold stepsOfModule
        simp only [Bool.false_eq_true, if_false]
        apply List.mem_cons_of_mem
        exact List.mem_map.2 ⟨r, List.mem_filter.2 ⟨hr, hd⟩, by simp [parameterStep, ht]⟩
      · apply List.mem_append_right
        exact List.mem_map.2 ⟨r, List.mem_filter.2 ⟨hr, hd⟩, by simp [parameterStep, ht]⟩

/-- C18, amended: a type assertion on a path parameter is a step of entry
building exactly when module-only mode is off and the parameter is declared
with a non-textual value by a resource or by a requirement of an included
module; and whenever such a step is preceded in entry order by no failing
classification, `setManifestDesc` ends in the panic of the string type
assertion and returns neither an entry list nor an error. -/
theorem setManifestDesc_cast_failure (env : Env) (g : Option Loc) (mods : List Module)
    (resources : List Resource) (modules : List String) (only : Bool) :
    (Step.castFailure ∈ steps env g mods resources modules only ↔
      only = false ∧
        ((∃ m ∈ mods, included modules m = true ∧ ∃ r ∈ m.Requires,
            declaresPath r.Parameters = true ∧ textualPath r.Parameters = false) ∨
          ∃ r ∈ resources, declaresPath r.Parameters = true ∧
            textualPath r.Parameters = false)) ∧
    (∀ pre post,
      steps env g mods resources modules only = pre ++ Step.castFailure :: post →
      (∀ q c, Step.classify q c ∈ pre → classifies env g q = true) →
      setManifestDesc env g mods resources modules only = .panic) := by
  refine ⟨castFailure_mem_steps env g mods resources modules only, ?_⟩
  intro pre post hsteps hpre
  rw [setManifestDesc_spec, hsteps, firstStop_prefix_panic env g pre post hpre]
  rfl

theorem setManifestDesc_cast_failure_witness :
    setManifestDesc sourceOnly (some ⟨"src", "tmp"⟩)
      [⟨"job", "webdir", [⟨"log", [("path", .bool true)]⟩, ⟨"db", [("path", .str "missing")]⟩]⟩]
      [⟨"cfg", [("path", .str "missing")]⟩] [] false = .panic :=
  (setManifestDesc_cast_failure sourceOnly (some ⟨"src", "tmp"⟩)
      [⟨"job", "webdir", [⟨"log", [("path", .bool true)]⟩, ⟨"db", [("path", .str "missing")]⟩]⟩]
      [⟨"cfg", [("path", .str "missing")]⟩] [] false).2
    [.classify "webdir" (moduleContext
      ⟨"job", "webdir", [⟨"log", [("path", .bool true)]⟩, ⟨"db", [("path", .str "missing")]⟩]⟩)]
    [.classify "missing" (requiredContext
        ⟨"job", "webdir", [⟨"log", [("path", .bool true)]⟩, ⟨"db", [("path", .str "missing")]⟩]⟩),
      .classify "missing" (resourceContext ⟨"cfg", [("path", .str "missing")]⟩)]
    (by decide)
    (fun q c h => by
      have hq : q = "webdir" := by
        simp only [List.mem_singleton, Step.classify.injEq] at h
        exact h.1
      rw [hq]
      decide)

end Artifacts
